import Mathlib

/-!
Verification development for the pixel-art reconstruction pipeline
(`png_to_svg.py` and the conversion helpers of `pixel_playground.py`).

The Python sources are shallowly embedded: an image is a width, a height and
a function from coordinates to RGBA pixels (channels are `Fin 256`, as PIL
RGBA channels are bytes); every scanning loop becomes a computation over
`List.range` / `List.range'`; Python dictionaries keyed by color strings
become association lists built in insertion order; Python's `sorted` becomes
a sort by the same key order; color strings become `List Char` (a Python `str`
compared code-point-wise is exactly a lexicographically ordered list of
characters). Fallible steps return `Option`.
-/

set_option maxRecDepth 8000

namespace PixelBria

/-- One RGBA pixel. PIL's RGBA mode stores one byte per channel. -/
structure Pixel where
  r : Fin 256
  g : Fin 256
  b : Fin 256
  a : Fin 256
deriving DecidableEq

instance : Inhabited Pixel := ⟨⟨0, 0, 0, 0⟩⟩

/-- An in-memory raster image: dimensions plus pixel access, as obtained from
`Image.open(...).convert("RGBA")` followed by `load()`. -/
structure Img where
  w : ℕ
  h : ℕ
  pix : ℕ → ℕ → Pixel

/-- `alpha >= alpha_min_value`: the visibility test used uniformly by the scanners. -/
def visiblePx (t : ℕ) (p : Pixel) : Bool := t ≤ p.a.val

/-- Does row `y` contain any pixel with alpha at or above the threshold?
(The inner `for x in range(w)` loop of the row-major scanners.) -/
def rowHasVisible (im : Img) (t : ℕ) (y : ℕ) : Bool :=
  (List.range im.w).any fun x => visiblePx t (im.pix x y)

/-- Does column `x` contain any pixel with alpha at or above the threshold?
(The inner `for y in range(h)` loop of the column-major scanners.) -/
def colHasVisible (im : Img) (t : ℕ) (x : ℕ) : Bool :=
  (List.range im.h).any fun y => visiblePx t (im.pix x y)

/-- `find_first_nontransparent_pixel`: scan rows top to bottom, within a row left
to right, and return the first pixel whose alpha meets the threshold. -/
def find_first_nontransparent_pixel (im : Img) (t : ℕ) : Option (ℕ × ℕ) :=
  match (List.range im.h).find? (fun y => rowHasVisible im t y) with
  | none => none
  | some y => ((List.range im.w).find? (fun x => visiblePx t (im.pix x y))).map fun x => (x, y)

/-- `find_last_nontransparent_pixel`: the same scan from bottom-right to top-left. -/
def find_last_nontransparent_pixel (im : Img) (t : ℕ) : Option (ℕ × ℕ) :=
  match ((List.range im.h).reverse).find? (fun y => rowHasVisible im t y) with
  | none => none
  | some y =>
    (((List.range im.w).reverse).find? (fun x => visiblePx t (im.pix x y))).map fun x => (x, y)

/-- `find_leftmost_nontransparent_pixel`: scan columns left to right, inside a
column top to bottom. -/
def find_leftmost_nontransparent_pixel (im : Img) (t : ℕ) : Option (ℕ × ℕ) :=
  match (List.range im.w).find? (fun x => colHasVisible im t x) with
  | none => none
  | some x => ((List.range im.h).find? (fun y => visiblePx t (im.pix x y))).map fun y => (x, y)

/-- `find_rightmost_nontransparent_pixel`: scan columns right to left, inside a
column top to bottom. -/
def find_rightmost_nontransparent_pixel (im : Img) (t : ℕ) : Option (ℕ × ℕ) :=
  match ((List.range im.w).reverse).find? (fun x => colHasVisible im t x) with
  | none => none
  | some x => ((List.range im.h).find? (fun y => visiblePx t (im.pix x y))).map fun y => (x, y)

/-! ### Hex color strings (`_to_hex` and the `#RRGGBBAA` keys) -/

/-- One uppercase hexadecimal digit, as produced by Python's `"%02X"` formatting. -/
def hexDigitCh (n : ℕ) : Char :=
  if n = 0 then '0' else if n = 1 then '1' else if n = 2 then '2'
  else if n = 3 then '3' else if n = 4 then '4' else if n = 5 then '5'
  else if n = 6 then '6' else if n = 7 then '7' else if n = 8 then '8'
  else if n = 9 then '9' else if n = 10 then 'A' else if n = 11 then 'B'
  else if n = 12 then 'C' else if n = 13 then 'D' else if n = 14 then 'E'
  else 'F'

/-- `_to_hex`: `f"{val:02X}"` for a byte value. -/
def hex2 (v : ℕ) : List Char := [hexDigitCh (v / 16), hexDigitCh (v % 16)]

/-- The `#RRGGBBAA` key built for each visible pixel of a block. -/
def rgbaKey (p : Pixel) : List Char :=
  '#' :: (hex2 p.r.val ++ hex2 p.g.val ++ hex2 p.b.val ++ hex2 p.a.val)

/-- Value of one hexadecimal digit, as accepted by Python's `int(s, 16)`. -/
def hexDigitVal (c : Char) : Option ℕ :=
  if c = '0' then some 0 else if c = '1' then some 1 else if c = '2' then some 2
  else if c = '3' then some 3 else if c = '4' then some 4 else if c = '5' then some 5
  else if c = '6' then some 6 else if c = '7' then some 7 else if c = '8' then some 8
  else if c = '9' then some 9
  else if c = 'A' ∨ c = 'a' then some 10 else if c = 'B' ∨ c = 'b' then some 11
  else if c = 'C' ∨ c = 'c' then some 12 else if c = 'D' ∨ c = 'd' then some 13
  else if c = 'E' ∨ c = 'e' then some 14 else if c = 'F' ∨ c = 'f' then some 15
  else none

/-- `int(two_chars, 16)`. Python additionally tolerates exotic two-character
forms (sign or whitespace followed by one digit); those never arise from the
attribute slices handled here and are not modelled. -/
def hexPairVal (c1 c2 : Char) : Option ℕ :=
  match hexDigitVal c1, hexDigitVal c2 with
  | some v1, some v2 => some (16 * v1 + v2)
  | _, _ => none

/-- `int(k[-2:], 16)` on a color key: the alpha byte stored in each count entry.
For keys produced by `rgbaKey` the parse cannot fail; the impossible branch
returns 0. -/
def alphaOfKey (k : List Char) : ℕ :=
  match k.drop (k.length - 2) with
  | [c1, c2] => (hexPairVal c1 c2).getD 0
  | _ => 0

/-! ### Per-block color accounting (`blk_color_counts` / `blk_color_coords`) -/

/-- One record of `blk_counts_list`: `rgba_hex`, `rgb_hex`, `a`, `count`, `coords`. -/
structure ColorEntry where
  rgba_hex : List Char
  rgb_hex : List Char
  a : ℕ
  count : ℕ
  coords : List (ℕ × ℕ)
deriving DecidableEq

/-- Add one occurrence of key `k` at coordinate `c` to the association list that
models the insertion-ordered dicts `blk_color_counts` / `blk_color_coords`. -/
def bumpColor (k : List Char) (c : ℕ × ℕ) :
    List (List Char × ℕ × List (ℕ × ℕ)) → List (List Char × ℕ × List (ℕ × ℕ))
  | [] => [(k, 1, [c])]
  | (k', n, cs) :: rest =>
    if k' = k then (k', n + 1, cs ++ [c]) :: rest else (k', n, cs) :: bumpColor k c rest

/-- Fold the visible pixels of a block (in scan order) into color data:
key, occurrence count, and the coordinates holding that color. -/
def colorData (ps : List ((ℕ × ℕ) × Pixel)) : List (List Char × ℕ × List (ℕ × ℕ)) :=
  ps.foldl (fun acc pc => bumpColor (rgbaKey pc.2) pc.1 acc) []

/-- The sort order of `sorted(blk_color_counts.items(), key=lambda kv: (-kv[1], kv[0]))`:
by descending count, ties broken by ascending color string (`List Char` carries
the code-point lexicographic order of Python strings). -/
def countKeyRel (e1 e2 : List Char × ℕ × List (ℕ × ℕ)) : Prop :=
  e2.2.1 < e1.2.1 ∨ (e1.2.1 = e2.2.1 ∧ e1.1 ≤ e2.1)

instance : DecidableRel countKeyRel := fun e1 e2 => by
  unfold countKeyRel
  infer_instance

instance : IsTotal (List Char × ℕ × List (ℕ × ℕ)) countKeyRel :=
  ⟨fun e1 e2 => by
    rcases lt_trichotomy e1.2.1 e2.2.1 with h | h | h
    · exact Or.inr (Or.inl h)
    · rcases le_total e1.1 e2.1 with h' | h'
      · exact Or.inl (Or.inr ⟨h, h'⟩)
      · exact Or.inr (Or.inr ⟨h.symm, h'⟩)
    · exact Or.inl (Or.inl h)⟩

instance : IsTrans (List Char × ℕ × List (ℕ × ℕ)) countKeyRel :=
  ⟨fun e1 e2 e3 h12 h23 => by
    rcases h12 with h12 | ⟨hc12, hk12⟩
    · rcases h23 with h23 | ⟨hc23, _⟩
      · exact Or.inl (h23.trans h12)
      · exact Or.inl (hc23 ▸ h12)
    · rcases h23 with h23 | ⟨hc23, hk23⟩
      · exact Or.inl (hc12 ▸ h23)
      · exact Or.inr ⟨hc12.trans hc23, hk12.trans hk23⟩⟩

/-- Turn one sorted color-data triple into the emitted record. -/
def mkColorEntry (e : List Char × ℕ × List (ℕ × ℕ)) : ColorEntry :=
  { rgba_hex := e.1, rgb_hex := e.1.take 7, a := alphaOfKey e.1, count := e.2.1,
    coords := e.2.2 }

/-- `blk_counts_list`: the color data sorted by `(-count, key)` and formatted.
Python's `sorted` is a stable mergesort; since the dict keys are pairwise
distinct the sort order `countKeyRel` is antisymmetric on the entries, every
correct sort produces the same list, and a structurally recursive insertion
sort is used. -/
def blockCounts (ps : List ((ℕ × ℕ) × Pixel)) : List ColorEntry :=
  ((colorData ps).insertionSort countKeyRel).map mkColorEntry

/-! ### `scan_row_blocks` -/

/-- One block of a scanned row. -/
structure Block where
  index : ℕ
  ox : ℕ
  oy : ℕ
  actual_w : ℕ
  actual_h : ℕ
  visible_pixels : ℕ
  skipped_pixels : ℕ
  color_counts : List ColorEntry
deriving DecidableEq

instance : Inhabited Block := ⟨⟨0, 0, 0, 0, 0, 0, 0, []⟩⟩

/-- The pixel coordinates visited inside the block at origin `(ox, oy)`:
`dy` then `dx`, each clipped at the image edge exactly as the `break`s do. -/
def blockCoords (im : Img) (bs ox oy : ℕ) : List (ℕ × ℕ) :=
  (List.range (min bs (im.h - oy))).flatMap fun dy =>
    (List.range (min bs (im.w - ox))).map fun dx => (ox + dx, oy + dy)

/-- The block analysis of one `block_size × block_size` footprint; `none` when
no pixel of the footprint is visible (such blocks are not appended). -/
def mkBlock (im : Img) (bs t fx oy idx : ℕ) : Option Block :=
  let ox := fx + idx * bs
  let coords := blockCoords im bs ox oy
  let visPs := coords.filter fun c => visiblePx t (im.pix c.1 c.2)
  if visPs.length = 0 then none
  else some
    { index := idx, ox := ox, oy := oy
      actual_w := if min bs (im.h - oy) = 0 ∨ min bs (im.w - ox) = 0 then 0
                  else min bs (im.w - ox)
      actual_h := if min bs (im.w - ox) = 0 then 0 else min bs (im.h - oy)
      visible_pixels := visPs.length
      skipped_pixels := coords.length - visPs.length
      color_counts := blockCounts (visPs.map fun c => (c, im.pix c.1 c.2)) }

/-- Number of loop turns of `while True: origin_x = start_block_x + bi*block_size ...`,
i.e. the number of `bi` with `fx + bi*bs < w` (for `bs ≥ 1`). -/
def numBlocksFrom (w fx bs : ℕ) : ℕ := (w - fx + bs - 1) / bs

/-- All blocks appended while scanning rightward from the anchor `(fx, oy)`. -/
def rawRowBlocks (im : Img) (bs t fx oy : ℕ) : List Block :=
  (List.range (numBlocksFrom im.w fx bs)).filterMap fun bi => mkBlock im bs t fx oy bi

/-- STEP 1 and STEP 2 of `scan_row_blocks`: the topmost row of
`[start_y, start_y + min(block_size, h - start_y))` holding a visible pixel,
then the leftmost visible pixel of that row. -/
def rowAnchor (im : Img) (sy bs t : ℕ) : Option (ℕ × ℕ) :=
  match (List.range' sy (min bs (im.h - sy))).find? (fun cy => rowHasVisible im t cy) with
  | none => none
  | some ty => ((List.range im.w).find? (fun x => visiblePx t (im.pix x ty))).map fun x => (x, ty)

/-- `visible_pixels / (block_size * block_size) < 0.5`: the trailing-block
sparsity test (the denominator is the nominal block area, not the clipped one).
Embedded as the exactly equivalent integer comparison `2*visible < bs*bs`:
for positive `bs` the rational inequality `v/(bs*bs) < 1/2` holds iff
`2*v < bs*bs` (see `sparseBlock_iff_rat` below), and the Python float quotient
is far too close to the exact value to cross the strict boundary. -/
def sparseBlock (bs : ℕ) (b : Block) : Bool :=
  decide (2 * b.visible_pixels < bs * bs)

/-- The `while row_blocks: ... pop() ... else break` loop: remove blocks from the
end while the last one is sparse. -/
def trimTrailing (bs : ℕ) (l : List Block) : List Block :=
  ((l.reverse).dropWhile (sparseBlock bs)).reverse

/-- The row dictionary returned by `scan_row_blocks`. -/
structure Row where
  block_size : ℕ
  blocks : List Block
  firstX : ℕ
  firstY : ℕ
  lastVisited : ℕ × ℕ
deriving DecidableEq

/-- `scan_row_blocks(img, start_y, block_size, alpha_min_value)`. `none` models
every `return None` path (no anchor, no blocks, all blocks trimmed). -/
def scan_row_blocks (im : Img) (sy bs t : ℕ) : Option Row :=
  match rowAnchor im sy bs t with
  | none => none
  | some (fx, oy) =>
    let raw := rawRowBlocks im bs t fx oy
    if raw = [] then none
    else
      let kept := trimTrailing bs raw
      match kept.getLast? with
      | none => none
      | some lb =>
        some { block_size := bs, blocks := kept, firstX := fx, firstY := oy
               lastVisited := (lb.ox + bs - 1, lb.oy + bs - 1) }

/-! ### The Grid Assembler / SVG Emitter (`main` of `png_to_svg.py`) -/

/-- One emitted `<rect>`: unit width and height, grid coordinates, `fill`
(`rgb_hex` of the dominant color) and `fill-opacity` (`round(a/255, 4)`),
stored as an exact count of ten-thousandths (`fillOpacityE4 = 10000` is the
printed opacity `1.0`). -/
structure SvgRect where
  x : ℤ
  y : ℤ
  fill : List Char
  fillOpacityE4 : ℕ
deriving DecidableEq

/-- The emitted SVG document: `viewBox "0 0 canvasW canvasH"` plus the rectangle
list, in emission order. -/
structure SvgDoc where
  canvasW : ℤ
  canvasH : ℤ
  rects : List SvgRect
deriving DecidableEq

instance : Inhabited SvgDoc := ⟨⟨0, 0, []⟩⟩

/-- Python's `round(a/255.0, 4)` as a count of ten-thousandths:
`(20000*a + 255) / 510` is the integer nearest to `10000*a/255` (rounding half
up; `10000*a/255` is never a half-integer for `a ≤ 255`, so Python's
half-to-even rounding agrees, and the float quotient is exact to far more than
the digits kept). -/
def round4of255 (a : ℕ) : ℕ := (20000 * a + 255) / 510

/-- Emission of one block: skipped when `color_counts` is empty (falsy), else a
unit rectangle at `((ox - left_ref) // bs, (oy - top_ref) // bs)` filled with the
dominant color's `rgb_hex` and opacity `round(a/255, 4)`. `//` is floor division. -/
def emitRect (bs : ℕ) (leftRef topRef : ℕ) (b : Block) : Option SvgRect :=
  match b.color_counts with
  | [] => none
  | e :: _ =>
    some { x := Int.fdiv ((b.ox : ℤ) - (leftRef : ℤ)) (bs : ℤ)
           y := Int.fdiv ((b.oy : ℤ) - (topRef : ℤ)) (bs : ℤ)
           fill := e.rgb_hex
           fillOpacityE4 := round4of255 e.a }

/-- The rectangles of all rows, row by row, block by block. -/
def buildRects (bs leftRef topRef : ℕ) (rows : List Row) : List SvgRect :=
  rows.flatMap fun row => row.blocks.filterMap fun b => emitRect bs leftRef topRef b

/-- The start Y of every strip visited by
`while current_y <= last_y: ... current_y += block_size` (for `bs ≥ 1`). -/
def stripStarts (y0 lastY bs : ℕ) : List ℕ :=
  if lastY < y0 then [] else (List.range ((lastY - y0) / bs + 1)).map fun k => y0 + k * bs

/-- `all_rows`: the non-absent rows over all strips (row numbering is cosmetic
metadata and is not modelled). The CLI threshold is hardcoded to 128. -/
def allRows (im : Img) (bs y0 lastY : ℕ) : List Row :=
  (stripStarts y0 lastY bs).filterMap fun sy => scan_row_blocks im sy bs 128

/-- The SVG-generation phase of `main`, given the boundary-scan results and the
retained rows. `left_ref` falls back to the first block's origin X when the
leftmost scan returned nothing (unreachable once a first pixel exists);
`int((right_ref - left_ref)/bs)` truncates toward zero, hence `Int.tdiv`. -/
def buildDoc (im : Img) (bs : ℕ) (lastY : ℕ) (rows : List Row) (r0 : Row) : SvgDoc :=
  let leftRef : ℕ :=
    match find_leftmost_nontransparent_pixel im 128 with
    | some c => c.1
    | none => ((r0.blocks.headD default).ox)
  let topRef : ℕ := (r0.blocks.headD default).oy
  let rightRef : ℕ :=
    match find_rightmost_nontransparent_pixel im 128 with
    | some c => c.1
    | none => 0
  { canvasW := Int.tdiv ((rightRef : ℤ) - (leftRef : ℤ)) (bs : ℤ) + 1
    canvasH := Int.tdiv ((lastY : ℤ) - (topRef : ℤ)) (bs : ℤ) + 1
    rects := buildRects bs leftRef topRef rows }

/-- The whole reconstruction of `main` on an opened image: boundary scan, row
scans, SVG assembly. `none` models the exit-code-2 paths (no visible pixel, no
boundary, zero rows). -/
def assemble (im : Img) (bs : ℕ) : Option SvgDoc :=
  match find_first_nontransparent_pixel im 128 with
  | none => none
  | some (_, y0) =>
    match find_last_nontransparent_pixel im 128 with
    | none => none
    | some (_, lastY) =>
      match allRows im bs y0 lastY with
      | [] => none
      | r0 :: rest => some (buildDoc im bs lastY (r0 :: rest) r0)

/-- `main` as a function of the run conditions: `input = none` models a missing
or unreadable source image, `writeOk = false` a failing SVG write. Returns the
process exit code and the successfully written document, if any. -/
def mainRun (input : Option Img) (bs : ℕ) (writeOk : Bool) : ℕ × Option SvgDoc :=
  match input with
  | none => (3, none)
  | some im =>
    match find_first_nontransparent_pixel im 128 with
    | none => (2, none)
    | some _ =>
      match find_last_nontransparent_pixel im 128 with
      | none => (2, none)
      | some _ =>
        match assemble im bs with
        | none => (2, none)
        | some doc => if writeOk then (0, some doc) else (3, none)

/-! ### The Vector-to-Raster Materializer, Contract B (`_svg_to_editable_png`) -/

/-- One `<rect>` as read back from the SVG text: each geometry attribute is the
result of `int(float(attr))` (`none` when that conversion raises, `some 0` when
the attribute is missing, since `rect.get('x', 0)` defaults to 0), plus the raw
`fill` string. -/
structure RawRect where
  rx : Option ℤ
  ry : Option ℤ
  rw : Option ℤ
  rh : Option ℤ
  fill : List Char
deriving DecidableEq

/-- Serialization of an emitted rectangle followed by XML attribute parsing:
the integer grid coordinates and the unit extents round-trip exactly through
their decimal rendering and `int(float(...))`. -/
def rawOfRect (r : SvgRect) : RawRect :=
  { rx := some r.x, ry := some r.y, rw := some 1, rh := some 1, fill := r.fill }

/-- The fill handling of `_svg_to_editable_png`: a string that starts with `#`
and has length 7 goes through `int(_, 16)` on its three 2-character slices
(raising — `none` — on a non-hex digit); any other string paints black. -/
def fillColor (s : List Char) : Option (ℕ × ℕ × ℕ) :=
  if s.head? = some '#' ∧ s.length = 7 then
    match s with
    | _ :: c1 :: c2 :: c3 :: c4 :: c5 :: c6 :: _ =>
      match hexPairVal c1 c2, hexPairVal c3 c4, hexPairVal c5 c6 with
      | some rv, some gv, some bv => some (rv, gv, bv)
      | _, _, _ => none
    | _ => some (0, 0, 0)
  else some (0, 0, 0)

/-- The `try` body for one rectangle: geometry conversions, then the fill
branch. `none` is the `except: continue` path that skips the rectangle. -/
def processRect (r : RawRect) : Option (ℤ × ℤ × ℤ × ℤ × (ℕ × ℕ × ℕ)) := do
  let x ← r.rx
  let y ← r.ry
  let w ← r.rw
  let h ← r.rh
  let c ← fillColor r.fill
  pure (x, y, w, h, c)

/-- Does the double loop `for py in range(y, min(y + h, vb_height)):
for px in range(x, min(x + w, vb_width))` write pixel `(px, py)`?
(Negative coordinates never occur in assembler output and Pillow's negative
indexing is not modelled.) -/
def coversCell (W H : ℕ) (pr : ℤ × ℤ × ℤ × ℤ × (ℕ × ℕ × ℕ)) (px py : ℕ) : Bool :=
  decide (pr.1 ≤ (px : ℤ)) && decide ((px : ℤ) < min (pr.1 + pr.2.2.1) (W : ℤ)) &&
  decide (pr.2.1 ≤ (py : ℤ)) && decide ((py : ℤ) < min (pr.2.1 + pr.2.2.2.1) (H : ℤ))

/-- Paint the rectangles left to right onto the grid; a later rectangle
overwrites an earlier one on the cells it covers; skipped rectangles paint
nothing. -/
def paintAll (W H : ℕ) (g0 : ℕ → ℕ → ℕ × ℕ × ℕ) (rs : List RawRect) : ℕ → ℕ → ℕ × ℕ × ℕ :=
  rs.foldl
    (fun g r =>
      match processRect r with
      | none => g
      | some pr => fun px py => if coversCell W H pr px py then pr.2.2.2.2 else g px py)
    g0

/-- `_svg_to_editable_png`: an RGB raster of exactly the declared canvas size,
white background, one pixel per grid cell. `none` models the `except` path for
a negative canvas (`Image.new` raises); the `block_size` argument is unused by
the Python function and kept for signature fidelity. -/
def svg_to_editable_png (doc : SvgDoc) (_blockSize : ℕ) : Option (ℕ × ℕ × (ℕ → ℕ → ℕ × ℕ × ℕ)) :=
  if doc.canvasW < 0 ∨ doc.canvasH < 0 then none
  else
    some (doc.canvasW.toNat, doc.canvasH.toNat,
      paintAll doc.canvasW.toNat doc.canvasH.toNat (fun _ _ => (255, 255, 255))
        (doc.rects.map rawOfRect))

/-- The single output pixel at `(px, py)` of the editable raster. -/
def editablePixel (doc : SvgDoc) (blockSize px py : ℕ) : Option (ℕ × ℕ × ℕ) :=
  (svg_to_editable_png doc blockSize).map fun r => r.2.2 px py

/-! ### Block Size Estimator (`_compute_gradient_at_positions`,
`_compute_boundary_contrast` of `pixel_playground.py`)

The Sobel magnitude map is floating-point library output; it enters the
embedding as an abstract per-position gradient map `g` (exact for the inputs
used below: on a constant image every Sobel derivative, hence every magnitude,
is exactly 0). The position classification and the averaging/ratio logic are
embedded from the source. -/

/-- `on_x_boundary or on_y_boundary`: the coordinate is congruent to `0` or
`N - 1` modulo the candidate block size. -/
def onBlockEdge (n x y : ℕ) : Bool :=
  (x % n == 0) || (x % n == n - 1) || (y % n == 0) || (y % n == n - 1)

/-- All `(x, y)` positions of the image in the scan order of the double loop. -/
def allPositions (hgt wdt : ℕ) : List (ℕ × ℕ) :=
  (List.range hgt).flatMap fun y => (List.range wdt).map fun x => (x, y)

/-- `_compute_gradient_at_positions`: average gradient magnitude over boundary
positions and over interior positions (`np.mean(...) if ... else 0`). -/
def compute_gradient_at_positions (hgt wdt n : ℕ) (g : ℕ → ℕ → ℚ) : ℚ × ℚ :=
  let bnd := (allPositions hgt wdt).filter fun p => onBlockEdge n p.1 p.2
  let ins := (allPositions hgt wdt).filter fun p => !onBlockEdge n p.1 p.2
  (if bnd = [] then 0 else (bnd.map fun p => g p.1 p.2).sum / (bnd.length : ℚ),
   if ins = [] then 0 else (ins.map fun p => g p.1 p.2).sum / (ins.length : ℚ))

/-- `_compute_boundary_contrast`: `avg_boundary / avg_inside`, with the
`avg_inside < 0.001` branch returning `avg_boundary / 0.001` only when
`avg_boundary > 0`, and `1.0` otherwise. -/
def compute_boundary_contrast (hgt wdt n : ℕ) (g : ℕ → ℕ → ℚ) : ℚ :=
  let ab := (compute_gradient_at_positions hgt wdt n g).1
  let ai := (compute_gradient_at_positions hgt wdt n g).2
  if ai < 1 / 1000 then (if 0 < ab then ab / (1 / 1000) else 1)
  else ab / ai

/-! ### Concrete images used by the claims -/

/-- A fully opaque green pixel `(0, 255, 0, 255)`. -/
def greenPx : Pixel := ⟨0, 255, 0, 255⟩

/-- A fully transparent pixel. -/
def clearPx : Pixel := ⟨0, 0, 0, 0⟩

/-- An opaque red pixel `(255, 0, 0, 255)`. -/
def redPx : Pixel := ⟨255, 0, 0, 255⟩

/-- An opaque blue pixel `(0, 0, 255, 255)`. -/
def bluePx : Pixel := ⟨0, 0, 255, 255⟩

/-- The 32×32 test image: a 16×16 green square with top-left corner `(8, 8)` on
an all-transparent background. -/
def greenImg : Img :=
  { w := 32, h := 32
    pix := fun x y =>
      if 8 ≤ x ∧ x < 24 ∧ 8 ≤ y ∧ y < 24 then greenPx else clearPx }

/-- A 2×2 image in which every pixel has alpha 0. -/
def transparentImg : Img := { w := 2, h := 2, pix := fun _ _ => clearPx }

/-- A 2×4 image whose first strip (at block size 2) holds a single opaque pixel
(trimmed as sparse) and whose second strip is a full red block. -/
def sparseTopImg : Img :=
  { w := 2, h := 4
    pix := fun x y =>
      if x = 0 ∧ y = 0 then redPx
      else if 2 ≤ y then redPx
      else clearPx }

/-- A 2×6 image (block size 2): a lone opaque pixel at `(0, 0)` whose strip is
trimmed away, content anchored at `y = 3` in the second strip, and more content
at `y = 4`; the two retained rows collide on the same output grid row. -/
def collideImg : Img :=
  { w := 2, h := 6
    pix := fun x y =>
      if x = 0 ∧ y = 0 then redPx
      else if y = 3 then redPx
      else if x = 0 ∧ y = 4 then redPx
      else if (x = 1 ∧ y = 4) ∨ y = 5 then bluePx
      else clearPx }

instance : Inhabited ColorEntry := ⟨⟨[], [], 0, 0, []⟩⟩

/-- The document `main` emits for `greenImg` at block size 16. -/
def greenDoc : SvgDoc := ⟨1, 1, [⟨0, 0, ("#00FF00".data), 10000⟩]⟩

/-- The raw rectangle of the C10 scenario: parseable geometry, 7-character
`#`-prefixed fill with non-hex digits. -/
def zzRect : RawRect := ⟨some 0, some 0, some 1, some 1, ("#ZZZZZZ".data)⟩

/-- The key/count projection of one color-data triple (coordinates dropped). -/
def keyCount (e : List Char × ℕ × List (ℕ × ℕ)) : List Char × ℕ := (e.1, e.2.1)

/-- `countKeyRel` seen on key/count pairs. -/
def pairRel (p1 p2 : List Char × ℕ) : Prop :=
  p2.2 < p1.2 ∨ (p1.2 = p2.2 ∧ p1.1 ≤ p2.1)

/-- `bumpColor` restricted to key/count pairs. -/
def bumpPair (k : List Char) : List (List Char × ℕ) → List (List Char × ℕ)
  | [] => [(k, 1)]
  | (k', n) :: rest =>
    if k' = k then (k', n + 1) :: rest else (k', n) :: bumpPair k rest

/-- The strict order in which `color_counts` is emitted: descending count,
ties by ascending color string. -/
def entryOrder (e1 e2 : ColorEntry) : Prop :=
  e2.count < e1.count ∨ (e1.count = e2.count ∧ e1.rgba_hex < e2.rgba_hex)

/-- The key/count association built by folding `bumpPair` over a color list:
the key/count shadow of the `blk_color_counts` dict. -/
def countPairs (ks : List (List Char)) : List (List Char × ℕ) :=
  ks.foldl (fun a k => bumpPair k a) []

instance : DecidableRel entryOrder := fun e1 e2 => by
  unfold entryOrder
  infer_instance

/-- Two visible-pixel lists holding the same color multiset at different
coordinates (witness input). -/
def psA : List ((ℕ × ℕ) × Pixel) := [((0, 0), redPx), ((1, 0), bluePx)]

/-- See `psA`. -/
def psB : List ((ℕ × ℕ) × Pixel) := [((5, 5), bluePx), ((6, 5), redPx)]

/-- A 1×1 all-red image (witness input). -/
def tinyImg : Img := { w := 1, h := 1, pix := fun _ _ => redPx }

/-- The block scanned from `tinyImg` at block size 1. -/
def tinyBlk : Block :=
  { index := 0, ox := 0, oy := 0, actual_w := 1, actual_h := 1, visible_pixels := 1,
    skipped_pixels := 0,
    color_counts := [⟨("#FF0000FF".data), ("#FF0000".data), 255, 1, [(0, 0)]⟩] }

/-- The row scanned from `tinyImg` at `start_y = 0`, block size 1. -/
def tinyRow : Row :=
  { block_size := 1, blocks := [tinyBlk], firstX := 0, firstY := 0, lastVisited := (0, 0) }

/-! ### Characterizations of the linear scans -/

theorem find?_range'_spec {s n : ℕ} {p : ℕ → Bool} {x : ℕ}
    (h : (List.range' s n).find? p = some x) :
    p x = true ∧ s ≤ x ∧ x < s + n ∧ ∀ y, s ≤ y → y < x → p y = false := by
  induction n generalizing s with
  | zero => simp at h
  | succ n ih =>
    rw [List.range'_succ] at h
    by_cases hs : p s
    · rw [List.find?_cons_of_pos _ hs] at h
      obtain rfl : s = x := by injection h
      exact ⟨hs, le_refl s, by omega, fun y hy1 hy2 => absurd hy1 (by omega)⟩
    · rw [List.find?_cons_of_neg _ hs] at h
      obtain ⟨hp, hle, hlt, hmin⟩ := ih h
      refine ⟨hp, by omega, by omega, fun y hy1 hy2 => ?_⟩
      rcases Nat.eq_or_lt_of_le hy1 with rfl | hy1'
      · exact Bool.eq_false_iff.mpr hs
      · exact hmin y hy1' hy2

theorem find?_range'_reverse_spec {s n : ℕ} {p : ℕ → Bool} {x : ℕ}
    (h : ((List.range' s n).reverse).find? p = some x) :
    p x = true ∧ s ≤ x ∧ x < s + n ∧ ∀ y, x < y → y < s + n → p y = false := by
  induction n generalizing x with
  | zero => simp at h
  | succ n ih =>
    rw [List.range'_concat, List.reverse_append] at h
    simp only [List.reverse_singleton, List.singleton_append, Nat.one_mul] at h
    by_cases htop : p (s + n)
    · rw [List.find?_cons_of_pos _ htop] at h
      obtain rfl : s + n = x := by injection h
      exact ⟨htop, by omega, by omega, fun y hy1 hy2 => absurd hy1 (by omega)⟩
    · rw [List.find?_cons_of_neg _ htop] at h
      obtain ⟨hp, hle, hlt, hmax⟩ := ih h
      refine ⟨hp, hle, by omega, fun y hy1 hy2 => ?_⟩
      rcases Nat.lt_succ_iff_lt_or_eq.mp (by omega : y < s + n + 1) with hy' | rfl
      · exact hmax y hy1 hy'
      · exact Bool.eq_false_iff.mpr htop

theorem find?_range_spec {n : ℕ} {p : ℕ → Bool} {x : ℕ}
    (h : (List.range n).find? p = some x) :
    p x = true ∧ x < n ∧ ∀ y, y < x → p y = false := by
  rw [List.range_eq_range'] at h
  obtain ⟨hp, _, hlt, hmin⟩ := find?_range'_spec h
  exact ⟨hp, by omega, fun y hy => hmin y (Nat.zero_le y) hy⟩

theorem find?_range_reverse_spec {n : ℕ} {p : ℕ → Bool} {x : ℕ}
    (h : ((List.range n).reverse).find? p = some x) :
    p x = true ∧ x < n ∧ ∀ y, x < y → y < n → p y = false := by
  rw [List.range_eq_range'] at h
  obtain ⟨hp, _, hlt, hmax⟩ := find?_range'_reverse_spec h
  exact ⟨hp, by omega, fun y hy1 hy2 => hmax y hy1 (by omega)⟩

/-- A visible pixel in bounds makes its row test true. -/
theorem rowHasVisible_of_vis {im : Img} {t x y : ℕ} (hx : x < im.w)
    (hvis : visiblePx t (im.pix x y) = true) : rowHasVisible im t y = true := by
  rw [rowHasVisible, List.any_eq_true]
  exact ⟨x, List.mem_range.mpr hx, hvis⟩

/-- A visible pixel in bounds makes its column test true. -/
theorem colHasVisible_of_vis {im : Img} {t x y : ℕ} (hy : y < im.h)
    (hvis : visiblePx t (im.pix x y) = true) : colHasVisible im t x = true := by
  rw [colHasVisible, List.any_eq_true]
  exact ⟨y, List.mem_range.mpr hy, hvis⟩

/-- What `find_first_nontransparent_pixel = some (x, y)` guarantees. -/
theorem find_first_spec {im : Img} {t x y : ℕ}
    (h : find_first_nontransparent_pixel im t = some (x, y)) :
    x < im.w ∧ y < im.h ∧ visiblePx t (im.pix x y) = true ∧
    (∀ y', y' < y → rowHasVisible im t y' = false) ∧
    (∀ x', x' < x → visiblePx t (im.pix x' y) = false) := by
  rw [find_first_nontransparent_pixel] at h
  cases hy : (List.range im.h).find? (fun y' => rowHasVisible im t y') with
  | none => rw [hy] at h; exact absurd h (by simp)
  | some y1 =>
    rw [hy] at h
    dsimp only at h
    cases hx : (List.range im.w).find? (fun x' => visiblePx t (im.pix x' y1)) with
    | none => rw [hx] at h; exact absurd h (by simp)
    | some x1 =>
      rw [hx] at h
      have h2 : (x1, y1) = (x, y) := by simpa using h
      obtain ⟨rfl, rfl⟩ : x1 = x ∧ y1 = y := ⟨congrArg Prod.fst h2, congrArg Prod.snd h2⟩
      obtain ⟨hrow, hyn, hymin⟩ := find?_range_spec hy
      obtain ⟨hvis, hxn, hxmin⟩ := find?_range_spec hx
      exact ⟨hxn, hyn, hvis, hymin, hxmin⟩

/-- What `find_last_nontransparent_pixel = some (x, y)` guarantees. -/
theorem find_last_spec {im : Img} {t x y : ℕ}
    (h : find_last_nontransparent_pixel im t = some (x, y)) :
    x < im.w ∧ y < im.h ∧ visiblePx t (im.pix x y) = true ∧
    (∀ y', y < y' → y' < im.h → rowHasVisible im t y' = false) := by
  rw [find_last_nontransparent_pixel] at h
  cases hy : ((List.range im.h).reverse).find? (fun y' => rowHasVisible im t y') with
  | none => rw [hy] at h; exact absurd h (by simp)
  | some y1 =>
    rw [hy] at h
    dsimp only at h
    cases hx : ((List.range im.w).reverse).find? (fun x' => visiblePx t (im.pix x' y1)) with
    | none => rw [hx] at h; exact absurd h (by simp)
    | some x1 =>
      rw [hx] at h
      have h2 : (x1, y1) = (x, y) := by simpa using h
      obtain ⟨rfl, rfl⟩ : x1 = x ∧ y1 = y := ⟨congrArg Prod.fst h2, congrArg Prod.snd h2⟩
      obtain ⟨hrow, hyn, hymax⟩ := find?_range_reverse_spec hy
      obtain ⟨hvis, hxn, _⟩ := find?_range_reverse_spec hx
      exact ⟨hxn, hyn, hvis, hymax⟩

/-- What `find_leftmost_nontransparent_pixel = some (x, y)` guarantees. -/
theorem find_leftmost_spec {im : Img} {t x y : ℕ}
    (h : find_leftmost_nontransparent_pixel im t = some (x, y)) :
    x < im.w ∧ y < im.h ∧ visiblePx t (im.pix x y) = true ∧
    (∀ x', x' < x → colHasVisible im t x' = false) := by
  rw [find_leftmost_nontransparent_pixel] at h
  cases hx : (List.range im.w).find? (fun x' => colHasVisible im t x') with
  | none => rw [hx] at h; exact absurd h (by simp)
  | some x1 =>
    rw [hx] at h
    dsimp only at h
    cases hy : (List.range im.h).find? (fun y' => visiblePx t (im.pix x1 y')) with
    | none => rw [hy] at h; exact absurd h (by simp)
    | some y1 =>
      rw [hy] at h
      have h2 : (x1, y1) = (x, y) := by simpa using h
      obtain ⟨rfl, rfl⟩ : x1 = x ∧ y1 = y := ⟨congrArg Prod.fst h2, congrArg Prod.snd h2⟩
      obtain ⟨hcol, hxn, hxmin⟩ := find?_range_spec hx
      obtain ⟨hvis, hyn, _⟩ := find?_range_spec hy
      exact ⟨hxn, hyn, hvis, hxmin⟩

/-- What `find_rightmost_nontransparent_pixel = some (x, y)` guarantees. -/
theorem find_rightmost_spec {im : Img} {t x y : ℕ}
    (h : find_rightmost_nontransparent_pixel im t = some (x, y)) :
    x < im.w ∧ y < im.h ∧ visiblePx t (im.pix x y) = true ∧
    (∀ x', x < x' → x' < im.w → colHasVisible im t x' = false) := by
  rw [find_rightmost_nontransparent_pixel] at h
  cases hx : ((List.range im.w).reverse).find? (fun x' => colHasVisible im t x') with
  | none => rw [hx] at h; exact absurd h (by simp)
  | some x1 =>
    rw [hx] at h
    dsimp only at h
    cases hy : (List.range im.h).find? (fun y' => visiblePx t (im.pix x1 y')) with
    | none => rw [hy] at h; exact absurd h (by simp)
    | some y1 =>
      rw [hy] at h
      have h2 : (x1, y1) = (x, y) := by simpa using h
      obtain ⟨rfl, rfl⟩ : x1 = x ∧ y1 = y := ⟨congrArg Prod.fst h2, congrArg Prod.snd h2⟩
      obtain ⟨hcol, hxn, hxmax⟩ := find?_range_reverse_spec hx
      obtain ⟨hvis, hyn, _⟩ := find?_range_spec hy
      exact ⟨hxn, hyn, hvis, hxmax⟩

/-- Every visible in-bounds pixel lies at or below the `find_last` row. -/
theorem vis_le_lastY {im : Img} {t xe ye : ℕ}
    (hlast : find_last_nontransparent_pixel im t = some (xe, ye))
    {x y : ℕ} (hx : x < im.w) (hy : y < im.h)
    (hvis : visiblePx t (im.pix x y) = true) : y ≤ ye := by
  by_contra hgt
  have := (find_last_spec hlast).2.2.2 y (by omega) hy
  rw [rowHasVisible_of_vis hx hvis] at this
  exact Bool.noConfusion this

/-- Every visible in-bounds pixel lies at or below the `find_first` row is
false; rather, at or after it: the first row is minimal. -/
theorem firstY_le_vis {im : Img} {t x0 y0 : ℕ}
    (hfirst : find_first_nontransparent_pixel im t = some (x0, y0))
    {x y : ℕ} (hx : x < im.w) (hvis : visiblePx t (im.pix x y) = true) : y0 ≤ y := by
  by_contra hgt
  have := (find_first_spec hfirst).2.2.2.1 y (by omega)
  rw [rowHasVisible_of_vis hx hvis] at this
  exact Bool.noConfusion this

/-- Every visible in-bounds pixel lies at or right of the leftmost column. -/
theorem leftX_le_vis {im : Img} {t xl yl : ℕ}
    (hleft : find_leftmost_nontransparent_pixel im t = some (xl, yl))
    {x y : ℕ} (hy : y < im.h) (hvis : visiblePx t (im.pix x y) = true) : xl ≤ x := by
  by_contra hgt
  have := (find_leftmost_spec hleft).2.2.2 x (by omega)
  rw [colHasVisible_of_vis hy hvis] at this
  exact Bool.noConfusion this

/-- Every visible in-bounds pixel lies at or left of the rightmost column. -/
theorem vis_le_rightX {im : Img} {t xr yr : ℕ}
    (hright : find_rightmost_nontransparent_pixel im t = some (xr, yr))
    {x y : ℕ} (hx : x < im.w) (hy : y < im.h)
    (hvis : visiblePx t (im.pix x y) = true) : x ≤ xr := by
  by_contra hgt
  have := (find_rightmost_spec hright).2.2.2 x (by omega) hx
  rw [colHasVisible_of_vis hy hvis] at this
  exact Bool.noConfusion this

/-- If some pixel is visible, the leftmost scan succeeds. -/
theorem leftmost_isSome_of_vis {im : Img} {t x y : ℕ} (hx : x < im.w) (hy : y < im.h)
    (hvis : visiblePx t (im.pix x y) = true) :
    find_leftmost_nontransparent_pixel im t ≠ none := by
  intro hnone
  rw [find_leftmost_nontransparent_pixel] at hnone
  cases hcol : (List.range im.w).find? (fun x' => colHasVisible im t x') with
  | none =>
    have := List.find?_eq_none.mp hcol x (List.mem_range.mpr hx)
    rw [colHasVisible_of_vis hy hvis] at this
    exact this rfl
  | some x1 =>
    rw [hcol] at hnone
    dsimp only at hnone
    obtain ⟨hc, hx1, _⟩ := find?_range_spec hcol
    cases hyf : (List.range im.h).find? (fun y' => visiblePx t (im.pix x1 y')) with
    | none =>
      rw [colHasVisible, List.any_eq_true] at hc
      obtain ⟨y1, hy1, hv1⟩ := hc
      have := List.find?_eq_none.mp hyf y1 hy1
      exact this hv1
    | some y1 =>
      rw [hyf] at hnone
      exact absurd hnone (by simp)

/-- If some pixel is visible, the rightmost scan succeeds. -/
theorem rightmost_isSome_of_vis {im : Img} {t x y : ℕ} (hx : x < im.w) (hy : y < im.h)
    (hvis : visiblePx t (im.pix x y) = true) :
    find_rightmost_nontransparent_pixel im t ≠ none := by
  intro hnone
  rw [find_rightmost_nontransparent_pixel] at hnone
  cases hcol : ((List.range im.w).reverse).find? (fun x' => colHasVisible im t x') with
  | none =>
    have := List.find?_eq_none.mp hcol x (by
      rw [List.mem_reverse]
      exact List.mem_range.mpr hx)
    rw [colHasVisible_of_vis hy hvis] at this
    exact this rfl
  | some x1 =>
    rw [hcol] at hnone
    dsimp only at hnone
    obtain ⟨hc, hx1, _⟩ := find?_range_reverse_spec hcol
    cases hyf : (List.range im.h).find? (fun y' => visiblePx t (im.pix x1 y')) with
    | none =>
      rw [colHasVisible, List.any_eq_true] at hc
      obtain ⟨y1, hy1, hv1⟩ := hc
      have := List.find?_eq_none.mp hyf y1 hy1
      exact this hv1
    | some y1 =>
      rw [hyf] at hnone
      exact absurd hnone (by simp)

/-- Helper for C8: at any threshold of at least 1, a fully transparent image
defeats all four boundary scanners. -/
theorem scanners_none_of_transparent (im : Img) (t : ℕ) (ht : 1 ≤ t)
    (halpha : ∀ x, x < im.w → ∀ y, y < im.h → (im.pix x y).a.val = 0) :
    find_first_nontransparent_pixel im t = none ∧
    find_last_nontransparent_pixel im t = none ∧
    find_leftmost_nontransparent_pixel im t = none ∧
    find_rightmost_nontransparent_pixel im t = none := by
  have hvis : ∀ x y, x < im.w → y < im.h → visiblePx t (im.pix x y) = false := by
    intro x y hx hy
    simp only [visiblePx, decide_eq_false_iff_not]
    have := halpha x hx y hy
    omega
  have hrow : ∀ y, y < im.h → rowHasVisible im t y = false := by
    intro y hy
    simp only [rowHasVisible, List.any_eq_false]
    intro x hx
    simp [hvis x y (List.mem_range.mp hx) hy]
  have hcol : ∀ x, x < im.w → colHasVisible im t x = false := by
    intro x hx
    simp only [colHasVisible, List.any_eq_false]
    intro y hy
    simp [hvis x y hx (List.mem_range.mp hy)]
  refine ⟨?_, ?_, ?_, ?_⟩
  · simp only [find_first_nontransparent_pixel]
    rw [List.find?_eq_none.mpr]
    intro y hy
    simp [hrow y (List.mem_range.mp hy)]
  · simp only [find_last_nontransparent_pixel]
    rw [List.find?_eq_none.mpr]
    intro y hy
    simp [hrow y (List.mem_range.mp (List.mem_reverse.mp hy))]
  · simp only [find_leftmost_nontransparent_pixel]
    rw [List.find?_eq_none.mpr]
    intro x hx
    simp [hcol x (List.mem_range.mp hx)]
  · simp only [find_rightmost_nontransparent_pixel]
    rw [List.find?_eq_none.mpr]
    intro x hx
    simp [hcol x (List.mem_range.mp (List.mem_reverse.mp hx))]

/-- Claim C8: a fully transparent image (alpha 0 everywhere) under any
threshold of at least 1 yields `none` from all four boundary scanners, and the
CLI terminates with the empty-content exit code 2 and emits no document. -/
theorem fully_transparent_empty_content (im : Img) (t : ℕ) (ht : 1 ≤ t)
    (halpha : ∀ x, x < im.w → ∀ y, y < im.h → (im.pix x y).a.val = 0) :
    find_first_nontransparent_pixel im t = none ∧
    find_last_nontransparent_pixel im t = none ∧
    find_leftmost_nontransparent_pixel im t = none ∧
    find_rightmost_nontransparent_pixel im t = none ∧
    ∀ bs wo, mainRun (some im) bs wo = (2, none) := by
  obtain ⟨h1, h2, h3, h4⟩ := scanners_none_of_transparent im t ht halpha
  have h128 := scanners_none_of_transparent im 128 (by omega) halpha
  refine ⟨h1, h2, h3, h4, fun bs wo => ?_⟩
  simp [mainRun, h128.1]

/-- Witness for C8 at the concrete all-transparent 2×2 image and threshold 1. -/
theorem fully_transparent_empty_content_witness :
    ((1 : ℕ) ≤ 1 ∧
      ∀ x, x < transparentImg.w → ∀ y, y < transparentImg.h →
        (transparentImg.pix x y).a.val = 0) ∧
    (find_first_nontransparent_pixel transparentImg 1 = none ∧
      find_last_nontransparent_pixel transparentImg 1 = none ∧
      find_leftmost_nontransparent_pixel transparentImg 1 = none ∧
      find_rightmost_nontransparent_pixel transparentImg 1 = none ∧
      ∀ bs wo, mainRun (some transparentImg) bs wo = (2, none)) :=
  ⟨⟨le_refl 1, by decide⟩,
    fully_transparent_empty_content transparentImg 1 (le_refl 1) (by decide)⟩

/-! ### The trailing trim (claim C6) -/

/-- The integer sparsity test agrees with the exact rational reading of
`visible_pixels / (block_size*block_size) < 0.5` for positive block sizes. -/
theorem sparseBlock_iff_rat {bs : ℕ} (hbs : 1 ≤ bs) (b : Block) :
    sparseBlock bs b = true ↔ (b.visible_pixels : ℚ) / ((bs : ℚ) * bs) < 1 / 2 := by
  have hb0 : (0 : ℚ) < (bs : ℚ) * bs := by
    have h1 : (0 : ℚ) < (bs : ℚ) := by exact_mod_cast hbs
    exact mul_pos h1 h1
  rw [sparseBlock, decide_eq_true_iff, div_lt_div_iff₀ hb0 (by norm_num : (0 : ℚ) < 2),
    one_mul,
    show ((b.visible_pixels : ℚ)) * 2 = ((2 * b.visible_pixels : ℕ) : ℚ) by push_cast; ring,
    show ((bs : ℚ) * bs) = ((bs * bs : ℕ) : ℚ) by push_cast; ring,
    Nat.cast_lt]

/-- The trim keeps a prefix of the raw block list and every removed block is
sparse. -/
theorem trimTrailing_split (bs : ℕ) (l : List Block) :
    ∃ dropped, l = trimTrailing bs l ++ dropped ∧
      ∀ b ∈ dropped, sparseBlock bs b = true := by
  refine ⟨((l.reverse).takeWhile (sparseBlock bs)).reverse, ?_, ?_⟩
  · calc
      l = l.reverse.reverse := (List.reverse_reverse l).symm
      _ = (List.takeWhile (sparseBlock bs) l.reverse ++
            List.dropWhile (sparseBlock bs) l.reverse).reverse := by
        rw [List.takeWhile_append_dropWhile]
      _ = (List.dropWhile (sparseBlock bs) l.reverse).reverse ++
            (List.takeWhile (sparseBlock bs) l.reverse).reverse := by
        rw [List.reverse_append]
      _ = trimTrailing bs l ++ ((l.reverse).takeWhile (sparseBlock bs)).reverse := rfl
  · intro b hb
    rw [List.mem_reverse] at hb
    exact List.mem_takeWhile_imp hb

/-- The last kept block is not sparse. -/
theorem trimTrailing_getLast {bs : ℕ} {l : List Block} {b : Block}
    (h : (trimTrailing bs l).getLast? = some b) : sparseBlock bs b = false := by
  rw [trimTrailing, List.getLast?_reverse] at h
  have := List.head?_dropWhile_not (sparseBlock bs) l.reverse
  rw [h] at this
  exact this

/-- Claim C6: once a row anchor is found, the trailing trim removes exactly the
maximal sparse suffix of the scanned blocks: the kept blocks are a prefix of
the raw block list, every removed block has visible fraction below one half,
the last kept block (if any) does not, a successful scan returns exactly the
kept blocks, and a scan whose blocks are all trimmed returns no row. -/
theorem trailing_trim_exact (im : Img) (sy bs t fx oy : ℕ) (hbs : 1 ≤ bs)
    (hanchor : rowAnchor im sy bs t = some (fx, oy)) :
    ∃ dropped,
      rawRowBlocks im bs t fx oy =
        trimTrailing bs (rawRowBlocks im bs t fx oy) ++ dropped ∧
      (∀ b ∈ dropped, (b.visible_pixels : ℚ) / ((bs : ℚ) * bs) < 1 / 2) ∧
      (∀ b, (trimTrailing bs (rawRowBlocks im bs t fx oy)).getLast? = some b →
        ¬((b.visible_pixels : ℚ) / ((bs : ℚ) * bs) < 1 / 2)) ∧
      (∀ row, scan_row_blocks im sy bs t = some row →
        row.blocks = trimTrailing bs (rawRowBlocks im bs t fx oy) ∧ row.blocks ≠ []) ∧
      (trimTrailing bs (rawRowBlocks im bs t fx oy) = [] →
        scan_row_blocks im sy bs t = none) := by
  obtain ⟨dropped, hsplit, hdropped⟩ := trimTrailing_split bs (rawRowBlocks im bs t fx oy)
  refine ⟨dropped, hsplit, ?_, ?_, ?_, ?_⟩
  · intro b hb
    exact (sparseBlock_iff_rat hbs b).mp (hdropped b hb)
  · intro b hlast hrat
    have hfalse := trimTrailing_getLast hlast
    rw [(sparseBlock_iff_rat hbs b).mpr hrat] at hfalse
    exact Bool.noConfusion hfalse
  · intro row hrow
    rw [scan_row_blocks, hanchor] at hrow
    dsimp only at hrow
    by_cases hraw : rawRowBlocks im bs t fx oy = []
    · rw [if_pos hraw] at hrow
      exact absurd hrow (by simp)
    · rw [if_neg hraw] at hrow
      cases hlast : (trimTrailing bs (rawRowBlocks im bs t fx oy)).getLast? with
      | none =>
        rw [hlast] at hrow
        exact absurd hrow (by simp)
      | some lb =>
        rw [hlast] at hrow
        have hblocks : row.blocks = trimTrailing bs (rawRowBlocks im bs t fx oy) := by
          have := Option.some.inj hrow
          exact congrArg Row.blocks this.symm
        refine ⟨hblocks, ?_⟩
        rw [hblocks]
        intro hempty
        rw [hempty] at hlast
        exact Option.noConfusion hlast
  · intro hempty
    rw [scan_row_blocks, hanchor]
    dsimp only
    by_cases hraw : rawRowBlocks im bs t fx oy = []
    · rw [if_pos hraw]
    · rw [if_neg hraw, hempty]
      rfl

/-- Witness for C6 on the green-square image at `start_y = 8`. -/
theorem trailing_trim_exact_witness :
    ((1 : ℕ) ≤ 16 ∧ rowAnchor greenImg 8 16 128 = some (8, 8)) ∧
    (∃ dropped,
      rawRowBlocks greenImg 16 128 8 8 =
        trimTrailing 16 (rawRowBlocks greenImg 16 128 8 8) ++ dropped ∧
      (∀ b ∈ dropped, (b.visible_pixels : ℚ) / ((16 : ℚ) * 16) < 1 / 2) ∧
      (∀ b, (trimTrailing 16 (rawRowBlocks greenImg 16 128 8 8)).getLast? = some b →
        ¬((b.visible_pixels : ℚ) / ((16 : ℚ) * 16) < 1 / 2)) ∧
      (∀ row, scan_row_blocks greenImg 8 16 128 = some row →
        row.blocks = trimTrailing 16 (rawRowBlocks greenImg 16 128 8 8) ∧
          row.blocks ≠ []) ∧
      (trimTrailing 16 (rawRowBlocks greenImg 16 128 8 8) = [] →
        scan_row_blocks greenImg 8 16 128 = none)) :=
  ⟨⟨by omega, by decide⟩, trailing_trim_exact greenImg 8 16 128 8 8 (by omega) (by decide)⟩

/-! ### Color-count ordering and determinism (claim C7) -/

theorem keyCount_bumpColor (k : List Char) (c : ℕ × ℕ)
    (acc : List (List Char × ℕ × List (ℕ × ℕ))) :
    (bumpColor k c acc).map keyCount = bumpPair k (acc.map keyCount) := by
  induction acc with
  | nil => rfl
  | cons e rest ih =>
    obtain ⟨k', n, cs⟩ := e
    by_cases hk : k' = k
    · simp [bumpColor, bumpPair, keyCount, hk]
    · simp [bumpColor, bumpPair, keyCount, hk, ih]

theorem colorData_keyCount (ps : List ((ℕ × ℕ) × Pixel)) :
    (colorData ps).map keyCount = countPairs (ps.map fun pc => rgbaKey pc.2) := by
  rw [countPairs, List.foldl_map]
  suffices h : ∀ acc, ((ps.foldl (fun a pc => bumpColor (rgbaKey pc.2) pc.1 a) acc).map keyCount)
      = ps.foldl (fun a pc => bumpPair (rgbaKey pc.2) a) (acc.map keyCount) by
    exact h []
  induction ps with
  | nil => intro acc; rfl
  | cons pc rest ih =>
    intro acc
    rw [List.foldl_cons, List.foldl_cons, ih, keyCount_bumpColor]

theorem bumpPair_keys (k : List Char) (acc : List (List Char × ℕ)) :
    (bumpPair k acc).map Prod.fst =
      if k ∈ acc.map Prod.fst then acc.map Prod.fst else acc.map Prod.fst ++ [k] := by
  induction acc with
  | nil => simp [bumpPair]
  | cons p rest ih =>
    obtain ⟨k', n⟩ := p
    by_cases hk : k' = k
    · subst hk
      simp [bumpPair]
    · have hne : ¬(k = k') := fun h => hk h.symm
      by_cases hmem : k ∈ rest.map Prod.fst
      · simp [bumpPair, hk, ih, hmem, hne]
      · simp [bumpPair, hk, ih, hmem, hne]

theorem bumpPair_keys_nodup {k : List Char} {acc : List (List Char × ℕ)}
    (h : (acc.map Prod.fst).Nodup) : ((bumpPair k acc).map Prod.fst).Nodup := by
  rw [bumpPair_keys]
  by_cases hmem : k ∈ acc.map Prod.fst
  · rwa [if_pos hmem]
  · rw [if_neg hmem]
    exact List.Nodup.append h (List.nodup_singleton k) (by
      intro a ha hb
      rw [List.mem_singleton] at hb
      exact hmem (hb ▸ ha))

theorem bumpPair_cons_self (k : List Char) (n1 : ℕ) (rest : List (List Char × ℕ)) :
    bumpPair k ((k, n1) :: rest) = (k, n1 + 1) :: rest := by
  simp [bumpPair]

theorem bumpPair_cons_ne {k1 k : List Char} (hk : k1 ≠ k) (n1 : ℕ)
    (rest : List (List Char × ℕ)) :
    bumpPair k ((k1, n1) :: rest) = (k1, n1) :: bumpPair k rest := by
  simp [bumpPair, hk]

theorem bumpPair_mem_ne {k k' : List Char} {n : ℕ} (acc : List (List Char × ℕ))
    (hne : k' ≠ k) : ((k', n) ∈ bumpPair k acc ↔ (k', n) ∈ acc) := by
  induction acc with
  | nil => simp [bumpPair, hne]
  | cons p rest ih =>
    obtain ⟨k1, n1⟩ := p
    by_cases hk : k1 = k
    · subst hk
      rw [bumpPair_cons_self]
      simp [Prod.ext_iff, hne]
    · rw [bumpPair_cons_ne hk]
      simp [ih]

theorem bumpPair_mem_self {k : List Char} {n : ℕ} {acc : List (List Char × ℕ)}
    (hnodup : (acc.map Prod.fst).Nodup) :
    ((k, n) ∈ bumpPair k acc ↔
      (∃ m, (k, m) ∈ acc ∧ n = m + 1) ∨ (k ∉ acc.map Prod.fst ∧ n = 1)) := by
  induction acc with
  | nil => simp [bumpPair]
  | cons p rest ih =>
    obtain ⟨k1, n1⟩ := p
    rw [List.map_cons, List.nodup_cons] at hnodup
    obtain ⟨hk1, hrest⟩ := hnodup
    by_cases hk : k1 = k
    · subst hk
      have hk1' : k1 ∉ rest.map Prod.fst := hk1
      have hnotrest : ∀ m, (k1, m) ∉ rest := fun m hm =>
        hk1' (List.mem_map_of_mem Prod.fst hm)
      rw [bumpPair_cons_self]
      simp only [List.mem_cons, List.map_cons, Prod.mk.injEq]
      constructor
      · rintro (⟨-, rfl⟩ | h)
        · exact Or.inl ⟨n1, Or.inl ⟨trivial, rfl⟩, rfl⟩
        · exact absurd h (hnotrest n)
      · rintro (⟨m, ⟨-, rfl⟩ | hm, rfl⟩ | ⟨hnotin, rfl⟩)
        · exact Or.inl ⟨trivial, rfl⟩
        · exact absurd hm (hnotrest m)
        · exact absurd (Or.inl trivial) hnotin
    · have hne : k ≠ k1 := fun h => hk h.symm
      rw [bumpPair_cons_ne hk]
      simp only [List.mem_cons, List.map_cons, Prod.mk.injEq, ih hrest]
      constructor
      · rintro (⟨h, -⟩ | ⟨m, hm, rfl⟩ | ⟨hni, rfl⟩)
        · exact absurd h hne
        · exact Or.inl ⟨m, Or.inr hm, rfl⟩
        · refine Or.inr ⟨?_, rfl⟩
          intro hmem
          rcases hmem with h | h
          · exact hne h
          · exact hni h
      · rintro (⟨m, ⟨h, -⟩ | hm, rfl⟩ | ⟨hni, rfl⟩)
        · exact absurd h hne
        · exact Or.inr (Or.inl ⟨m, hm, rfl⟩)
        · refine Or.inr (Or.inr ⟨?_, rfl⟩)
          exact fun hmem => hni (Or.inr hmem)

theorem countPairsFrom_spec :
    ∀ (ks : List (List Char)) (acc : List (List Char × ℕ)),
    (acc.map Prod.fst).Nodup →
    ((ks.foldl (fun a k => bumpPair k a) acc).map Prod.fst).Nodup ∧
    (∀ k n, (k, n) ∈ ks.foldl (fun a k => bumpPair k a) acc ↔
      ((∃ m, (k, m) ∈ acc ∧ n = m + ks.count k) ∨
       (k ∉ acc.map Prod.fst ∧ k ∈ ks ∧ n = ks.count k))) := by
  intro ks
  induction ks with
  | nil =>
    intro acc hacc
    refine ⟨hacc, fun k n => ?_⟩
    simp
  | cons k0 rest ih =>
    intro acc hacc
    rw [List.foldl_cons]
    obtain ⟨hnodup', hmem'⟩ := ih (bumpPair k0 acc) (bumpPair_keys_nodup hacc)
    refine ⟨hnodup', fun k n => ?_⟩
    rw [hmem' k n]
    have hkeys := bumpPair_keys k0 acc
    by_cases hk : k = k0
    · subst hk
      have hkin : k ∈ (bumpPair k acc).map Prod.fst := by
        rw [hkeys]
        by_cases hmem : k ∈ acc.map Prod.fst
        · rwa [if_pos hmem]
        · rw [if_neg hmem]
          exact List.mem_append_right _ (List.mem_singleton.mpr rfl)
      rw [List.count_cons_self]
      constructor
      · rintro (⟨m, hm, rfl⟩ | ⟨hnotin, _, rfl⟩)
        · rw [bumpPair_mem_self hacc] at hm
          rcases hm with ⟨m0, hm0, rfl⟩ | ⟨hnotin, rfl⟩
          · exact Or.inl ⟨m0, hm0, by omega⟩
          · exact Or.inr ⟨hnotin, List.mem_cons_self k rest, by omega⟩
        · exact absurd hkin hnotin
      · rintro (⟨m, hm, rfl⟩ | ⟨hnotin, _, rfl⟩)
        · refine Or.inl ⟨m + 1, ?_, by omega⟩
          rw [bumpPair_mem_self hacc]
          exact Or.inl ⟨m, hm, rfl⟩
        · refine Or.inl ⟨1, ?_, by omega⟩
          rw [bumpPair_mem_self hacc]
          exact Or.inr ⟨hnotin, rfl⟩
    · have hcount : (k0 :: rest).count k = rest.count k :=
        List.count_cons_of_ne hk rest
      have hkeys' : k ∈ (bumpPair k0 acc).map Prod.fst ↔ k ∈ acc.map Prod.fst := by
        rw [hkeys]
        by_cases hmem : k0 ∈ acc.map Prod.fst
        · rw [if_pos hmem]
        · rw [if_neg hmem]
          constructor
          · intro hin
            rcases List.mem_append.mp hin with h | h
            · exact h
            · exact absurd (List.mem_singleton.mp h) hk
          · exact fun h => List.mem_append_left _ h
      rw [hcount]
      constructor
      · rintro (⟨m, hm, rfl⟩ | ⟨hnotin, hrest, rfl⟩)
        · rw [bumpPair_mem_ne acc hk] at hm
          exact Or.inl ⟨m, hm, rfl⟩
        · exact Or.inr ⟨fun h => hnotin (hkeys'.mpr h), List.mem_cons_of_mem k0 hrest, rfl⟩
      · rintro (⟨m, hm, rfl⟩ | ⟨hnotin, hmem, rfl⟩)
        · refine Or.inl ⟨m, ?_, rfl⟩
          rwa [bumpPair_mem_ne acc hk]
        · refine Or.inr ⟨fun h => hnotin (hkeys'.mp h), ?_, rfl⟩
          rcases List.mem_cons.mp hmem with h | h
          · exact absurd h hk
          · exact h

theorem countPairs_keys_nodup (ks : List (List Char)) :
    ((countPairs ks).map Prod.fst).Nodup :=
  (countPairsFrom_spec ks [] (by simp)).1

theorem countPairs_mem (ks : List (List Char)) (k : List Char) (n : ℕ) :
    (k, n) ∈ countPairs ks ↔ k ∈ ks ∧ n = ks.count k := by
  have h := (countPairsFrom_spec ks [] (by simp)).2 k n
  rw [countPairs, h]
  simp

theorem countPairs_perm {ks ks' : List (List Char)} (h : ks.Perm ks') :
    (countPairs ks).Perm (countPairs ks') := by
  refine List.perm_of_nodup_nodup_toFinset_eq
    (List.Nodup.of_map Prod.fst (countPairs_keys_nodup ks))
    (List.Nodup.of_map Prod.fst (countPairs_keys_nodup ks')) ?_
  ext p
  obtain ⟨k, n⟩ := p
  rw [List.mem_toFinset, List.mem_toFinset, countPairs_mem, countPairs_mem,
    h.mem_iff]
  have hc : ks.count k = ks'.count k := h.countP_eq (fun x => x == k)
  rw [hc]

instance : IsAntisymm (List Char × ℕ) pairRel :=
  ⟨fun p q hpq hqp => by
    rcases hpq with h1 | ⟨hc1, hk1⟩
    · rcases hqp with h2 | ⟨hc2, _⟩
      · omega
      · omega
    · rcases hqp with h2 | ⟨_, hk2⟩
      · omega
      · exact Prod.ext (le_antisymm hk1 hk2) hc1⟩

theorem countKeyRel_keyCount {e1 e2 : List Char × ℕ × List (ℕ × ℕ)}
    (h : countKeyRel e1 e2) : pairRel (keyCount e1) (keyCount e2) := h

/-- The key/count content of `blk_counts_list` depends only on the multiset of
visible colors. -/
theorem blockCounts_keyCount_eq (ps ps' : List ((ℕ × ℕ) × Pixel))
    (h : (ps.map fun pc => rgbaKey pc.2).Perm (ps'.map fun pc => rgbaKey pc.2)) :
    (blockCounts ps).map (fun e => (e.rgba_hex, e.count)) =
    (blockCounts ps').map (fun e => (e.rgba_hex, e.count)) := by
  have key : ∀ qs : List ((ℕ × ℕ) × Pixel),
      (blockCounts qs).map (fun e => (e.rgba_hex, e.count)) =
      ((colorData qs).insertionSort countKeyRel).map keyCount := by
    intro qs
    rw [blockCounts, List.map_map]
    rfl
  rw [key, key]
  have hsorted : ∀ qs : List ((ℕ × ℕ) × Pixel),
      List.Sorted pairRel (((colorData qs).insertionSort countKeyRel).map keyCount) := by
    intro qs
    exact List.Pairwise.map keyCount (fun a b => countKeyRel_keyCount)
      (List.sorted_insertionSort countKeyRel (colorData qs))
  have hperm : (((colorData ps).insertionSort countKeyRel).map keyCount).Perm
      (((colorData ps').insertionSort countKeyRel).map keyCount) := by
    have h1 : (((colorData ps).insertionSort countKeyRel).map keyCount).Perm
        ((colorData ps).map keyCount) :=
      (List.perm_insertionSort countKeyRel (colorData ps)).map keyCount
    have h2 : (((colorData ps').insertionSort countKeyRel).map keyCount).Perm
        ((colorData ps').map keyCount) :=
      (List.perm_insertionSort countKeyRel (colorData ps')).map keyCount
    refine h1.trans ?_
    have h3 : ((colorData ps).map keyCount).Perm ((colorData ps').map keyCount) := by
      rw [colorData_keyCount, colorData_keyCount]
      exact countPairs_perm h
    exact h3.trans h2.symm
  exact List.eq_of_perm_of_sorted hperm (hsorted ps) (hsorted ps')

/-! ### Structure of blocks and rows -/

theorem mem_blockCoords {im : Img} {bs ox oy : ℕ} {c : ℕ × ℕ}
    (h : c ∈ blockCoords im bs ox oy) :
    ox ≤ c.1 ∧ c.1 < ox + bs ∧ c.1 < im.w ∧ oy ≤ c.2 ∧ c.2 < oy + bs ∧ c.2 < im.h := by
  rw [blockCoords, List.mem_flatMap] at h
  obtain ⟨dy, hdy, hc⟩ := h
  rw [List.mem_map] at hc
  obtain ⟨dx, hdx, rfl⟩ := hc
  rw [List.mem_range] at hdy hdx
  refine ⟨by omega, by omega, by omega, by omega, by omega, by omega⟩

theorem mkBlock_eq_some {im : Img} {bs t fx oy idx : ℕ} {b : Block}
    (h : mkBlock im bs t fx oy idx = some b) :
    b.index = idx ∧ b.ox = fx + idx * bs ∧ b.oy = oy ∧
    0 < b.visible_pixels ∧
    b.visible_pixels = ((blockCoords im bs (fx + idx * bs) oy).filter
      (fun c => visiblePx t (im.pix c.1 c.2))).length ∧
    b.color_counts = blockCounts (((blockCoords im bs (fx + idx * bs) oy).filter
      (fun c => visiblePx t (im.pix c.1 c.2))).map fun c => (c, im.pix c.1 c.2)) := by
  rw [mkBlock] at h
  by_cases hz : ((blockCoords im bs (fx + idx * bs) oy).filter
      (fun c => visiblePx t (im.pix c.1 c.2))).length = 0
  · rw [if_pos hz] at h
    exact absurd h (by simp)
  · rw [if_neg hz] at h
    have hb := Option.some.inj h
    subst hb
    exact ⟨rfl, rfl, rfl, Nat.pos_of_ne_zero hz, rfl, rfl⟩

theorem mem_rawRowBlocks {im : Img} {bs t fx oy : ℕ} {b : Block}
    (h : b ∈ rawRowBlocks im bs t fx oy) :
    ∃ idx, idx < numBlocksFrom im.w fx bs ∧ mkBlock im bs t fx oy idx = some b := by
  rw [rawRowBlocks, List.mem_filterMap] at h
  obtain ⟨idx, hidx, hmk⟩ := h
  exact ⟨idx, List.mem_range.mp hidx, hmk⟩

/-- Every appended block contains a visible pixel in its footprint. -/
theorem block_has_visible {im : Img} {bs t fx oy idx : ℕ} {b : Block}
    (h : mkBlock im bs t fx oy idx = some b) :
    ∃ c : ℕ × ℕ, c.1 < im.w ∧ c.2 < im.h ∧ b.ox ≤ c.1 ∧ c.1 < b.ox + bs ∧
      b.oy ≤ c.2 ∧ c.2 < b.oy + bs ∧ visiblePx t (im.pix c.1 c.2) = true := by
  obtain ⟨hidx, hox, hoy, hpos, hvis, -⟩ := mkBlock_eq_some h
  rw [hvis] at hpos
  obtain ⟨c, hc⟩ := List.exists_mem_of_length_pos hpos
  obtain ⟨hcoord, hcvis⟩ := List.mem_filter.mp hc
  obtain ⟨h1, h2, h3, h4, h5, h6⟩ := mem_blockCoords hcoord
  exact ⟨c, h3, h6, hox ▸ h1, hox ▸ h2, hoy ▸ h4, hoy ▸ h5, hcvis⟩

theorem rowAnchor_spec {im : Img} {sy bs t fx oy : ℕ}
    (h : rowAnchor im sy bs t = some (fx, oy)) :
    sy ≤ oy ∧ oy < sy + min bs (im.h - sy) ∧ oy < im.h ∧ fx < im.w ∧
    visiblePx t (im.pix fx oy) = true ∧
    (∀ y', sy ≤ y' → y' < oy → rowHasVisible im t y' = false) ∧
    (∀ x', x' < fx → visiblePx t (im.pix x' oy) = false) := by
  rw [rowAnchor] at h
  cases hty : (List.range' sy (min bs (im.h - sy))).find?
      (fun cy => rowHasVisible im t cy) with
  | none => rw [hty] at h; exact absurd h (by simp)
  | some ty =>
    rw [hty] at h
    dsimp only at h
    cases hx : (List.range im.w).find? (fun x => visiblePx t (im.pix x ty)) with
    | none => rw [hx] at h; exact absurd h (by simp)
    | some x1 =>
      rw [hx] at h
      have h2 : (x1, ty) = (fx, oy) := by simpa using h
      obtain ⟨rfl, rfl⟩ : x1 = fx ∧ ty = oy := ⟨congrArg Prod.fst h2, congrArg Prod.snd h2⟩
      obtain ⟨hrow, hsy, hlt, hmin⟩ := find?_range'_spec hty
      obtain ⟨hvis, hxw, hxmin⟩ := find?_range_spec hx
      exact ⟨hsy, hlt, by omega, hxw, hvis, hmin, hxmin⟩

theorem scan_row_blocks_eq_some {im : Img} {sy bs t : ℕ} {row : Row}
    (h : scan_row_blocks im sy bs t = some row) :
    ∃ fx oy, rowAnchor im sy bs t = some (fx, oy) ∧
      row.block_size = bs ∧ row.firstX = fx ∧ row.firstY = oy ∧
      row.blocks = trimTrailing bs (rawRowBlocks im bs t fx oy) ∧
      row.blocks ≠ [] := by
  rw [scan_row_blocks] at h
  cases ha : rowAnchor im sy bs t with
  | none => rw [ha] at h; exact absurd h (by simp)
  | some p =>
    obtain ⟨fx, oy⟩ := p
    rw [ha] at h
    dsimp only at h
    by_cases hraw : rawRowBlocks im bs t fx oy = []
    · rw [if_pos hraw] at h
      exact absurd h (by simp)
    · rw [if_neg hraw] at h
      cases hlast : (trimTrailing bs (rawRowBlocks im bs t fx oy)).getLast? with
      | none => rw [hlast] at h; exact absurd h (by simp)
      | some lb =>
        rw [hlast] at h
        have hr := Option.some.inj h
        subst hr
        refine ⟨fx, oy, rfl, rfl, rfl, rfl, rfl, ?_⟩
        intro hempty
        dsimp only at hempty
        rw [hempty] at hlast
        exact Option.noConfusion hlast

/-- The kept blocks are among the scanned blocks. -/
theorem mem_of_mem_trimTrailing {bs : ℕ} {l : List Block} {b : Block}
    (h : b ∈ trimTrailing bs l) : b ∈ l := by
  obtain ⟨dropped, hsplit, -⟩ := trimTrailing_split bs l
  rw [hsplit]
  exact List.mem_append_left _ h

/-- Each key of the color data is the key of some visible pixel of the block. -/
theorem colorData_key_src {ps : List ((ℕ × ℕ) × Pixel)}
    {tr : List Char × ℕ × List (ℕ × ℕ)} (h : tr ∈ colorData ps) :
    ∃ pc ∈ ps, tr.1 = rgbaKey pc.2 := by
  have hmem : keyCount tr ∈ (colorData ps).map keyCount := List.mem_map_of_mem keyCount h
  rw [colorData_keyCount] at hmem
  obtain ⟨hk, -⟩ := (countPairs_mem _ tr.1 tr.2.1).mp hmem
  rw [List.mem_map] at hk
  obtain ⟨pc, hpc, hkey⟩ := hk
  exact ⟨pc, hpc, hkey.symm⟩

/-- Each emitted entry records the key of some visible pixel, with `rgb_hex` and
`a` derived from that key. -/
theorem mem_blockCounts {ps : List ((ℕ × ℕ) × Pixel)} {e : ColorEntry}
    (h : e ∈ blockCounts ps) :
    e.rgb_hex = e.rgba_hex.take 7 ∧ e.a = alphaOfKey e.rgba_hex ∧
    ∃ pc ∈ ps, e.rgba_hex = rgbaKey pc.2 := by
  rw [blockCounts, List.mem_map] at h
  obtain ⟨tr, htr, rfl⟩ := h
  rw [List.mem_insertionSort] at htr
  exact ⟨rfl, rfl, colorData_key_src htr⟩

/-- The scanned entries are pairwise strictly ordered. -/
theorem blockCounts_pairwise (ps : List ((ℕ × ℕ) × Pixel)) :
    (blockCounts ps).Pairwise entryOrder := by
  have hsorted := List.sorted_insertionSort countKeyRel (colorData ps)
  have hkeysnodup : (((colorData ps).insertionSort countKeyRel).map Prod.fst).Nodup := by
    have hperm : ((((colorData ps).insertionSort countKeyRel)).map Prod.fst).Perm
        ((colorData ps).map Prod.fst) :=
      (List.perm_insertionSort countKeyRel (colorData ps)).map Prod.fst
    refine hperm.nodup_iff.mpr ?_
    have h1 : ((colorData ps).map Prod.fst) =
        ((colorData ps).map keyCount).map Prod.fst := by
      rw [List.map_map]
      rfl
    rw [h1, colorData_keyCount]
    exact countPairs_keys_nodup _
  have hkeyne : (((colorData ps)).insertionSort countKeyRel).Pairwise
      (fun a b => a.1 ≠ b.1) := List.pairwise_map.mp hkeysnodup
  rw [blockCounts]
  refine List.Pairwise.map mkColorEntry ?_ (hsorted.and hkeyne)
  rintro a b ⟨hrel, hne⟩
  rcases hrel with h | ⟨hc, hk⟩
  · exact Or.inl h
  · exact Or.inr ⟨hc, lt_of_le_of_ne hk hne⟩

/-- Claim C7: in every block produced by `scan_row_blocks`, `color_counts` is
strictly ordered by descending count with ties broken by ascending RGBA color
string; and the key/count sequence of `blk_counts_list` — in particular the
dominant color at its head — is uniquely determined by the multiset of visible
colors of the block (two visible-pixel lists whose color-key lists are
permutations of one another produce identical key/count sequences). -/
theorem color_counts_sorted_and_deterministic :
    (∀ im sy bs t row, scan_row_blocks im sy bs t = some row →
      ∀ b ∈ row.blocks, b.color_counts.Pairwise entryOrder) ∧
    (∀ ps ps' : List ((ℕ × ℕ) × Pixel),
      (ps.map fun pc => rgbaKey pc.2).Perm (ps'.map fun pc => rgbaKey pc.2) →
      (blockCounts ps).map (fun e => (e.rgba_hex, e.count)) =
        (blockCounts ps').map (fun e => (e.rgba_hex, e.count))) := by
  refine ⟨?_, blockCounts_keyCount_eq⟩
  intro im sy bs t row hrow b hb
  obtain ⟨fx, oy, ha, -, -, -, hblocks, -⟩ := scan_row_blocks_eq_some hrow
  rw [hblocks] at hb
  obtain ⟨idx, -, hmk⟩ := mem_rawRowBlocks (mem_of_mem_trimTrailing hb)
  obtain ⟨-, -, -, -, -, hcc⟩ := mkBlock_eq_some hmk
  rw [hcc]
  exact blockCounts_pairwise _

/-- Witness for C7 on the 1×1 red image and on two two-pixel lists carrying
the same color multiset at different coordinates. -/
theorem color_counts_sorted_witness :
    (scan_row_blocks tinyImg 0 1 128 = some tinyRow ∧
      tinyBlk ∈ tinyRow.blocks ∧
      ((psA.map fun pc => rgbaKey pc.2).Perm (psB.map fun pc => rgbaKey pc.2))) ∧
    (tinyBlk.color_counts.Pairwise entryOrder ∧
      (blockCounts psA).map (fun e => (e.rgba_hex, e.count)) =
        (blockCounts psB).map (fun e => (e.rgba_hex, e.count))) :=
  ⟨⟨by decide, by decide, by decide⟩,
    color_counts_sorted_and_deterministic.1 tinyImg 0 1 128 tinyRow (by decide)
      tinyBlk (by decide),
    color_counts_sorted_and_deterministic.2 psA psB (by decide)⟩

/-! ### Assembly: rows, rectangles, canvas (claims C2, C4, C9) -/

theorem fdiv_sub_eq_natDiv {a b bs : ℕ} (h : b ≤ a) :
    Int.fdiv ((a : ℤ) - (b : ℤ)) (bs : ℤ) = (((a - b) / bs : ℕ) : ℤ) := by
  have hcast : (a : ℤ) - (b : ℤ) = ((a - b : ℕ) : ℤ) := by omega
  rw [hcast, Int.fdiv_eq_tdiv (Int.natCast_nonneg _) (Int.natCast_nonneg _)]
  exact (Int.ofNat_tdiv _ _).symm

theorem tdiv_sub_eq_natDiv {a b bs : ℕ} (h : b ≤ a) :
    Int.tdiv ((a : ℤ) - (b : ℤ)) (bs : ℤ) = (((a - b) / bs : ℕ) : ℤ) := by
  have hcast : (a : ℤ) - (b : ℤ) = ((a - b : ℕ) : ℤ) := by omega
  rw [hcast]
  exact (Int.ofNat_tdiv _ _).symm

theorem allRows_eq_filterMap {im : Img} {bs y0 lastY : ℕ} (h : y0 ≤ lastY) :
    allRows im bs y0 lastY = (List.range ((lastY - y0) / bs + 1)).filterMap
      (fun k => scan_row_blocks im (y0 + k * bs) bs 128) := by
  rw [allRows, stripStarts, if_neg (by omega), List.filterMap_map]
  rfl

theorem mem_allRows {im : Img} {bs y0 lastY : ℕ} {row : Row}
    (hle : y0 ≤ lastY) (h : row ∈ allRows im bs y0 lastY) :
    ∃ k, k ≤ (lastY - y0) / bs ∧ scan_row_blocks im (y0 + k * bs) bs 128 = some row := by
  rw [allRows_eq_filterMap hle, List.mem_filterMap] at h
  obtain ⟨k, hk, hscan⟩ := h
  exact ⟨k, by rw [List.mem_range] at hk; omega, hscan⟩

/-- Bounds on the anchor Y of a scanned row. -/
theorem scan_firstY_bounds {im : Img} {sy bs t : ℕ} {row : Row}
    (h : scan_row_blocks im sy bs t = some row) :
    sy ≤ row.firstY ∧ row.firstY < sy + bs ∧ row.firstY < im.h ∧
    row.firstX < im.w ∧ visiblePx t (im.pix row.firstX row.firstY) = true := by
  obtain ⟨fx, oy, ha, -, hfx, hfy, -, -⟩ := scan_row_blocks_eq_some h
  obtain ⟨h1, h2, h3, h4, h5, -, -⟩ := rowAnchor_spec ha
  subst hfx
  subst hfy
  exact ⟨h1, by omega, h3, h4, h5⟩

/-- Fields of a kept block of a scanned row. -/
theorem row_block_fields {im : Img} {sy bs t : ℕ} {row : Row} {b : Block}
    (h : scan_row_blocks im sy bs t = some row) (hb : b ∈ row.blocks) :
    b.oy = row.firstY ∧ b.ox = row.firstX + b.index * bs ∧
    (∃ c : ℕ × ℕ, c.1 < im.w ∧ c.2 < im.h ∧ b.ox ≤ c.1 ∧ c.1 < b.ox + bs ∧
      b.oy ≤ c.2 ∧ c.2 < b.oy + bs ∧ visiblePx t (im.pix c.1 c.2) = true) := by
  obtain ⟨fx, oy, ha, -, hfx, hfy, hblocks, -⟩ := scan_row_blocks_eq_some h
  rw [hblocks] at hb
  obtain ⟨idx, -, hmk⟩ := mem_rawRowBlocks (mem_of_mem_trimTrailing hb)
  obtain ⟨hidx, hox, hoy, -, -, -⟩ := mkBlock_eq_some hmk
  obtain ⟨c, hc⟩ := block_has_visible hmk
  subst hfx
  subst hfy
  exact ⟨hoy, by rw [hox, hidx], c, hc⟩

/-- The kept blocks of a row have strictly increasing indices. -/
theorem row_blocks_pairwise_index {im : Img} {sy bs t : ℕ} {row : Row}
    (h : scan_row_blocks im sy bs t = some row) :
    row.blocks.Pairwise (fun b1 b2 => b1.index < b2.index) := by
  obtain ⟨fx, oy, -, -, -, -, hblocks, -⟩ := scan_row_blocks_eq_some h
  rw [hblocks]
  obtain ⟨dropped, hsplit, -⟩ := trimTrailing_split bs (rawRowBlocks im bs t fx oy)
  have hsub : (trimTrailing bs (rawRowBlocks im bs t fx oy)).Sublist
      (rawRowBlocks im bs t fx oy) := by
    conv_rhs => rw [hsplit]
    exact List.sublist_append_left _ _
  refine List.Pairwise.sublist hsub ?_
  rw [rawRowBlocks, List.pairwise_filterMap]
  refine (List.pairwise_lt_range _).imp ?_
  intro k1 k2 hk b1 hb1 b2 hb2
  rw [Option.mem_def] at hb1 hb2
  rw [(mkBlock_eq_some hb1).1, (mkBlock_eq_some hb2).1]
  exact hk

theorem emitRect_eq_some {bs leftRef topRef : ℕ} {b : Block} {r : SvgRect}
    (h : emitRect bs leftRef topRef b = some r) :
    ∃ e rest, b.color_counts = e :: rest ∧
      r.x = Int.fdiv ((b.ox : ℤ) - (leftRef : ℤ)) (bs : ℤ) ∧
      r.y = Int.fdiv ((b.oy : ℤ) - (topRef : ℤ)) (bs : ℤ) ∧
      r.fill = e.rgb_hex ∧ r.fillOpacityE4 = round4of255 e.a := by
  rw [emitRect] at h
  cases hcc : b.color_counts with
  | nil => rw [hcc] at h; exact absurd h (by simp)
  | cons e rest =>
    rw [hcc] at h
    have hr := Option.some.inj h
    subst hr
    exact ⟨e, rest, rfl, rfl, rfl, rfl, rfl⟩

theorem hexDigitVal_hexDigitCh : ∀ d, d < 16 → hexDigitVal (hexDigitCh d) = some d := by
  decide

theorem hexPairVal_hex2 {v : ℕ} (hv : v < 256) :
    hexPairVal (hexDigitCh (v / 16)) (hexDigitCh (v % 16)) = some v := by
  have h1 : hexDigitVal (hexDigitCh (v / 16)) = some (v / 16) :=
    hexDigitVal_hexDigitCh _ (by omega)
  have h2 : hexDigitVal (hexDigitCh (v % 16)) = some (v % 16) :=
    hexDigitVal_hexDigitCh _ (by omega)
  rw [hexPairVal, h1, h2]
  dsimp only
  rw [Nat.div_add_mod]

/-- The 7-character prefix of a pixel's RGBA key parses back to exactly the
pixel's RGB channels. -/
theorem fillColor_take7_rgbaKey (p : Pixel) :
    fillColor ((rgbaKey p).take 7) = some (p.r.val, p.g.val, p.b.val) := by
  have htake : (rgbaKey p).take 7 =
      ['#', hexDigitCh (p.r.val / 16), hexDigitCh (p.r.val % 16),
        hexDigitCh (p.g.val / 16), hexDigitCh (p.g.val % 16),
        hexDigitCh (p.b.val / 16), hexDigitCh (p.b.val % 16)] := rfl
  rw [htake, fillColor, if_pos ⟨rfl, rfl⟩]
  rw [hexPairVal_hex2 p.r.isLt, hexPairVal_hex2 p.g.isLt, hexPairVal_hex2 p.b.isLt]

/-- Every rectangle of a scanned row parses to the RGB of one of the block's
visible pixels. -/
theorem rowRect_fill_parses {im : Img} {sy bs t : ℕ} {row : Row} {b : Block}
    {r : SvgRect} {leftRef topRef : ℕ}
    (hrow : scan_row_blocks im sy bs t = some row) (hb : b ∈ row.blocks)
    (hemit : emitRect bs leftRef topRef b = some r) :
    ∃ p : Pixel, fillColor r.fill = some (p.r.val, p.g.val, p.b.val) := by
  obtain ⟨e, rest, hcc, -, -, hfill, -⟩ := emitRect_eq_some hemit
  obtain ⟨fx, oy, -, -, -, -, hblocks, -⟩ := scan_row_blocks_eq_some hrow
  rw [hblocks] at hb
  obtain ⟨idx, -, hmk⟩ := mem_rawRowBlocks (mem_of_mem_trimTrailing hb)
  obtain ⟨-, -, -, -, -, hccb⟩ := mkBlock_eq_some hmk
  have he : e ∈ b.color_counts := by
    rw [hcc]
    exact List.mem_cons_self e rest
  rw [hccb] at he
  obtain ⟨hrgb, -, pc, -, hkey⟩ := mem_blockCounts he
  refine ⟨pc.2, ?_⟩
  rw [hfill, hrgb, hkey, fillColor_take7_rgbaKey]

theorem assemble_eq_some {im : Img} {bs : ℕ} {doc : SvgDoc}
    (h : assemble im bs = some doc) :
    ∃ x0 y0 xe lastY r0 rest,
      find_first_nontransparent_pixel im 128 = some (x0, y0) ∧
      find_last_nontransparent_pixel im 128 = some (xe, lastY) ∧
      allRows im bs y0 lastY = r0 :: rest ∧
      doc = buildDoc im bs lastY (r0 :: rest) r0 := by
  rw [assemble] at h
  cases hf : find_first_nontransparent_pixel im 128 with
  | none => rw [hf] at h; exact absurd h (by simp)
  | some c0 =>
    obtain ⟨x0, y0⟩ := c0
    rw [hf] at h
    dsimp only at h
    cases hl : find_last_nontransparent_pixel im 128 with
    | none => rw [hl] at h; exact absurd h (by simp)
    | some ce =>
      obtain ⟨xe, lastY⟩ := ce
      rw [hl] at h
      dsimp only at h
      cases hrows : allRows im bs y0 lastY with
      | nil => rw [hrows] at h; exact absurd h (by simp)
      | cons r0 rest =>
        rw [hrows] at h
        exact ⟨x0, y0, xe, lastY, r0, rest, rfl, rfl, hrows, (Option.some.inj h).symm⟩

theorem buildDoc_fields {im : Img} {bs lastY : ℕ} {rows : List Row} {r0 : Row}
    {xl yl xr yr : ℕ}
    (hl : find_leftmost_nontransparent_pixel im 128 = some (xl, yl))
    (hr : find_rightmost_nontransparent_pixel im 128 = some (xr, yr)) :
    buildDoc im bs lastY rows r0 =
      { canvasW := Int.tdiv ((xr : ℤ) - (xl : ℤ)) (bs : ℤ) + 1
        canvasH := Int.tdiv ((lastY : ℤ) - ((r0.blocks.headD default).oy : ℤ)) (bs : ℤ) + 1
        rects := buildRects bs xl (r0.blocks.headD default).oy rows } := by
  rw [buildDoc, hl, hr]

/-- A row whose strip already contains visible content at its start Y anchors
exactly there. -/
theorem scan_firstY_of_rowVisible {im : Img} {sy bs t : ℕ} {row : Row}
    (h : scan_row_blocks im sy bs t = some row)
    (hvis : rowHasVisible im t sy = true) : row.firstY = sy := by
  obtain ⟨fx, oy, ha, -, -, hfy, -, -⟩ := scan_row_blocks_eq_some h
  obtain ⟨h1, -, -, -, -, hmin, -⟩ := rowAnchor_spec ha
  subst hfy
  by_contra hne
  have hlt : sy < row.firstY := by omega
  have := hmin sy (le_refl sy) hlt
  rw [hvis] at this
  exact Bool.noConfusion this

/-- When the strip at `y0` keeps its row, it is the head of `all_rows`. -/
theorem allRows_head_of_kept {im : Img} {bs y0 lastY : ℕ} {rowK : Row}
    (hle : y0 ≤ lastY)
    (hscan : scan_row_blocks im y0 bs 128 = some rowK) :
    ∃ rest, allRows im bs y0 lastY = rowK :: rest := by
  rw [allRows_eq_filterMap hle, List.range_succ_eq_map, List.filterMap_cons]
  have h0 : scan_row_blocks im (y0 + 0 * bs) bs 128 = some rowK := by
    rw [Nat.zero_mul, Nat.add_zero]
    exact hscan
  rw [h0]
  exact ⟨_, rfl⟩

theorem mem_buildRects {bs leftRef topRef : ℕ} {rows : List Row} {r : SvgRect}
    (h : r ∈ buildRects bs leftRef topRef rows) :
    ∃ row ∈ rows, ∃ b ∈ row.blocks, emitRect bs leftRef topRef b = some r := by
  rw [buildRects, List.mem_flatMap] at h
  obtain ⟨row, hrow, hr⟩ := h
  rw [List.mem_filterMap] at hr
  obtain ⟨b, hb, he⟩ := hr
  exact ⟨row, hrow, b, hb, he⟩

theorem rowRect_coords {bs leftRef topRef : ℕ} {b : Block} {r : SvgRect}
    (hemit : emitRect bs leftRef topRef b = some r)
    (hxl : leftRef ≤ b.ox) (hyt : topRef ≤ b.oy) :
    r.x = (((b.ox - leftRef) / bs : ℕ) : ℤ) ∧
    r.y = (((b.oy - topRef) / bs : ℕ) : ℤ) := by
  obtain ⟨e, rest, -, hx, hy, -, -⟩ := emitRect_eq_some hemit
  rw [hx, hy, fdiv_sub_eq_natDiv hxl, fdiv_sub_eq_natDiv hyt]
  exact ⟨rfl, rfl⟩

theorem buildRects_bounds {bs xl topRef xr lastY : ℕ} {rows : List Row}
    (hleft : ∀ row ∈ rows, ∀ b ∈ row.blocks, xl ≤ b.ox)
    (hright : ∀ row ∈ rows, ∀ b ∈ row.blocks, b.ox ≤ xr)
    (htop : ∀ row ∈ rows, ∀ b ∈ row.blocks, topRef ≤ b.oy)
    (hbot : ∀ row ∈ rows, ∀ b ∈ row.blocks, b.oy ≤ lastY) :
    ∀ r ∈ buildRects bs xl topRef rows,
      0 ≤ r.x ∧ r.x < (((xr - xl) / bs : ℕ) : ℤ) + 1 ∧
      0 ≤ r.y ∧ r.y < (((lastY - topRef) / bs : ℕ) : ℤ) + 1 := by
  intro r hr
  obtain ⟨row, hrow, b, hb, hemit⟩ := mem_buildRects hr
  obtain ⟨hx, hy⟩ := rowRect_coords hemit (hleft row hrow b hb) (htop row hrow b hb)
  rw [hx, hy]
  have h1 : (b.ox - xl) / bs ≤ (xr - xl) / bs :=
    Nat.div_le_div_right (by have := hright row hrow b hb; omega)
  have h2 : (b.oy - topRef) / bs ≤ (lastY - topRef) / bs :=
    Nat.div_le_div_right (by have := hbot row hrow b hb; omega)
  refine ⟨Int.natCast_nonneg _, by omega, Int.natCast_nonneg _, by omega⟩

theorem allRows_pairwise_firstY {im : Img} {bs y0 lastY : ℕ} (hbs : 1 ≤ bs)
    (hle : y0 ≤ lastY) :
    (allRows im bs y0 lastY).Pairwise (fun r1 r2 => r1.firstY < r2.firstY) := by
  rw [allRows_eq_filterMap hle, List.pairwise_filterMap]
  refine (List.pairwise_lt_range _).imp ?_
  intro k1 k2 hk rw1 h1 rw2 h2
  rw [Option.mem_def] at h1 h2
  obtain ⟨ha1, hb1, -, -, -⟩ := scan_firstY_bounds h1
  obtain ⟨ha2, -, -, -, -⟩ := scan_firstY_bounds h2
  have hstep : k1 * bs + bs ≤ k2 * bs := by
    have h3 := Nat.mul_le_mul_right bs (show k1 + 1 ≤ k2 by omega)
    have h4 : (k1 + 1) * bs = k1 * bs + bs := by ring
    omega
  omega

theorem head_firstY_min {im : Img} {bs y0 lastY : ℕ} {r0 : Row} {rest : List Row}
    (hbs : 1 ≤ bs) (hle : y0 ≤ lastY)
    (hrows : allRows im bs y0 lastY = r0 :: rest) :
    ∀ row ∈ allRows im bs y0 lastY, r0.firstY ≤ row.firstY := by
  have hp : (allRows im bs y0 lastY).Pairwise (fun r1 r2 => r1.firstY < r2.firstY) :=
    allRows_pairwise_firstY hbs hle
  rw [hrows] at hp ⊢
  intro row hrow
  rcases List.mem_cons.mp hrow with rfl | hmem
  · exact le_refl _
  · exact le_of_lt (List.rel_of_pairwise_cons hp hmem)

theorem headD_block_oy {im : Img} {sy bs t : ℕ} {row : Row}
    (h : scan_row_blocks im sy bs t = some row) :
    (row.blocks.headD default).oy = row.firstY := by
  obtain ⟨fx, oy, -, -, -, -, -, hne⟩ := scan_row_blocks_eq_some h
  cases hblocks : row.blocks with
  | nil => exact absurd hblocks hne
  | cons b brest =>
    have hb : b ∈ row.blocks := by
      rw [hblocks]
      exact List.mem_cons_self b brest
    obtain ⟨hoy, -, -⟩ := row_block_fields h hb
    exact hoy

theorem rowRect_x {im : Img} {sy bs t xl topRef : ℕ} {row : Row} {b : Block}
    {r : SvgRect} (hbs : 1 ≤ bs)
    (hscan : scan_row_blocks im sy bs t = some row) (hb : b ∈ row.blocks)
    (hemit : emitRect bs xl topRef b = some r) (hxl : xl ≤ row.firstX) :
    r.x = (((row.firstX - xl) / bs : ℕ) : ℤ) + b.index := by
  obtain ⟨-, hox, -⟩ := row_block_fields hscan hb
  obtain ⟨e, erest, -, hx, -, -, -⟩ := emitRect_eq_some hemit
  rw [hx, fdiv_sub_eq_natDiv (by omega : xl ≤ b.ox)]
  have hsub : b.ox - xl = (row.firstX - xl) + b.index * bs := by omega
  rw [hsub, Nat.add_mul_div_right _ _ (by omega : 0 < bs)]
  push_cast
  ring

theorem rowRect_y_strip {im : Img} {bs t y0 k xl : ℕ} {row : Row} {b : Block}
    {r : SvgRect} (hbs : 1 ≤ bs)
    (hscan : scan_row_blocks im (y0 + k * bs) bs t = some row)
    (hb : b ∈ row.blocks) (hemit : emitRect bs xl y0 b = some r) :
    r.y = (k : ℤ) := by
  obtain ⟨hoy, -, -⟩ := row_block_fields hscan hb
  obtain ⟨h1, h2, -, -, -⟩ := scan_firstY_bounds hscan
  obtain ⟨e, erest, -, -, hy, -, -⟩ := emitRect_eq_some hemit
  rw [hy, fdiv_sub_eq_natDiv (by omega : y0 ≤ b.oy)]
  have hdiv : (b.oy - y0) / bs = k := by
    refine Nat.div_eq_of_lt_le (by omega) ?_
    have h3 : (k + 1) * bs = k * bs + bs := by ring
    omega
  rw [hdiv]

/-- With the first strip's row retained, the emitted rectangles occupy pairwise
distinct grid cells. -/
theorem buildRects_pairwise_cells {im : Img} {bs y0 lastY xl : ℕ} (hbs : 1 ≤ bs)
    (hle : y0 ≤ lastY)
    (hleftall : ∀ row ∈ allRows im bs y0 lastY, xl ≤ row.firstX) :
    (buildRects bs xl y0 (allRows im bs y0 lastY)).Pairwise
      (fun r1 r2 => r1.x ≠ r2.x ∨ r1.y ≠ r2.y) := by
  rw [buildRects, List.pairwise_flatMap]
  constructor
  · intro row hrow
    obtain ⟨k, -, hscan⟩ := mem_allRows hle hrow
    have hxl : xl ≤ row.firstX := hleftall row hrow
    rw [List.pairwise_filterMap]
    have hpb := row_blocks_pairwise_index hscan
    refine List.Pairwise.imp_of_mem ?_ hpb
    intro b1 b2 hb1 hb2 hidx r1 hr1 r2 hr2
    rw [Option.mem_def] at hr1 hr2
    rw [rowRect_x hbs hscan hb1 hr1 hxl, rowRect_x hbs hscan hb2 hr2 hxl]
    left
    omega
  · rw [allRows_eq_filterMap hle, List.pairwise_filterMap]
    refine (List.pairwise_lt_range _).imp ?_
    intro k1 k2 hk rw1 h1 rw2 h2 r1 hr1 r2 hr2
    rw [Option.mem_def] at h1 h2
    rw [List.mem_filterMap] at hr1 hr2
    obtain ⟨b1, hb1, he1⟩ := hr1
    obtain ⟨b2, hb2, he2⟩ := hr2
    rw [rowRect_y_strip hbs h1 hb1 he1, rowRect_y_strip hbs h2 hb2 he2]
    right
    exact fun hcontra => absurd (Int.ofNat_inj.mp hcontra) (by omega)

/-- Bounds, relative to the boundary-scan results, of every block of every
retained row. -/
theorem assemble_block_bounds {im : Img} {bs y0 lastY x0 xe xl yl xr yr : ℕ}
    (hf : find_first_nontransparent_pixel im 128 = some (x0, y0))
    (hl : find_last_nontransparent_pixel im 128 = some (xe, lastY))
    (hleft : find_leftmost_nontransparent_pixel im 128 = some (xl, yl))
    (hright : find_rightmost_nontransparent_pixel im 128 = some (xr, yr))
    (hle : y0 ≤ lastY) :
    (∀ row ∈ allRows im bs y0 lastY, xl ≤ row.firstX) ∧
    (∀ row ∈ allRows im bs y0 lastY, ∀ b ∈ row.blocks, xl ≤ b.ox) ∧
    (∀ row ∈ allRows im bs y0 lastY, ∀ b ∈ row.blocks, b.ox ≤ xr) ∧
    (∀ row ∈ allRows im bs y0 lastY, ∀ b ∈ row.blocks, b.oy ≤ lastY) := by
  have hrowfx : ∀ row ∈ allRows im bs y0 lastY, xl ≤ row.firstX := by
    intro row hrow
    obtain ⟨k, -, hscan⟩ := mem_allRows hle hrow
    obtain ⟨-, -, hyh, hxw, hvis⟩ := scan_firstY_bounds hscan
    exact leftX_le_vis hleft hyh hvis
  refine ⟨hrowfx, ?_, ?_, ?_⟩
  · intro row hrow b hb
    obtain ⟨k, -, hscan⟩ := mem_allRows hle hrow
    obtain ⟨-, hox, -⟩ := row_block_fields hscan hb
    have := hrowfx row hrow
    omega
  · intro row hrow b hb
    obtain ⟨k, -, hscan⟩ := mem_allRows hle hrow
    obtain ⟨-, -, c, hcw, hch, hc1, -, -, -, hcvis⟩ := row_block_fields hscan hb
    have := vis_le_rightX hright hcw hch hcvis
    omega
  · intro row hrow b hb
    obtain ⟨k, -, hscan⟩ := mem_allRows hle hrow
    obtain ⟨hoy, -, -⟩ := row_block_fields hscan hb
    obtain ⟨-, -, hyh, hxw, hvis⟩ := scan_firstY_bounds hscan
    rw [hoy]
    exact vis_le_lastY hl hxw hyh hvis

/-- Claim C9 as amended: every emitted rectangle lies inside the declared
canvas; and when the row scanned at the first visible pixel's Y is retained,
distinct rectangles occupy distinct grid cells. -/
theorem rect_cells_in_canvas_unique (im : Img) (bs : ℕ) (doc : SvgDoc)
    (hbs : 1 ≤ bs) (hdoc : assemble im bs = some doc) :
    (∀ r ∈ doc.rects, 0 ≤ r.x ∧ r.x < doc.canvasW ∧ 0 ≤ r.y ∧ r.y < doc.canvasH) ∧
    (∀ x0 y0, find_first_nontransparent_pixel im 128 = some (x0, y0) →
      scan_row_blocks im y0 bs 128 ≠ none →
      doc.rects.Pairwise (fun r1 r2 => r1.x ≠ r2.x ∨ r1.y ≠ r2.y)) := by
  obtain ⟨x0, y0, xe, lastY, r0, rest, hf, hl, hrows, hdocEq⟩ := assemble_eq_some hdoc
  obtain ⟨hx0w, hy0h, hvis0, -, -⟩ := find_first_spec hf
  obtain ⟨⟨xl, yl⟩, hleft⟩ :=
    Option.ne_none_iff_exists'.mp (leftmost_isSome_of_vis hx0w hy0h hvis0)
  obtain ⟨⟨xr, yr⟩, hright⟩ :=
    Option.ne_none_iff_exists'.mp (rightmost_isSome_of_vis hx0w hy0h hvis0)
  have hle : y0 ≤ lastY := vis_le_lastY hl hx0w hy0h hvis0
  obtain ⟨hrowxl, hbxl, hbxr, hbylast⟩ := assemble_block_bounds hf hl hleft hright hle
  have hr0mem : r0 ∈ allRows im bs y0 lastY := by
    rw [hrows]
    exact List.mem_cons_self _ _
  obtain ⟨k0, -, hscan0⟩ := mem_allRows hle hr0mem
  have htop : (r0.blocks.headD default).oy = r0.firstY := headD_block_oy hscan0
  have htopmin : ∀ row ∈ allRows im bs y0 lastY, ∀ b ∈ row.blocks,
      (r0.blocks.headD default).oy ≤ b.oy := by
    intro row hrow b hb
    obtain ⟨kk, -, hscankk⟩ := mem_allRows hle hrow
    obtain ⟨hoy, -, -⟩ := row_block_fields hscankk hb
    rw [htop, hoy]
    exact head_firstY_min hbs hle hrows row hrow
  subst hdocEq
  rw [buildDoc_fields hleft hright]
  have hxlr : xl ≤ xr := by
    obtain ⟨hxrw, hyrh, hvisr, -⟩ := find_rightmost_spec hright
    exact leftX_le_vis hleft hyrh hvisr
  have htoplast : (r0.blocks.headD default).oy ≤ lastY := by
    rw [htop]
    obtain ⟨-, -, hyh, hxw, hvis⟩ := scan_firstY_bounds hscan0
    exact vis_le_lastY hl hxw hyh hvis
  constructor
  · intro r hr
    have hr' : r ∈ buildRects bs xl (r0.blocks.headD default).oy (allRows im bs y0 lastY) := by
      rw [hrows]
      exact hr
    have hb := buildRects_bounds hbxl hbxr htopmin hbylast r hr'
    rw [tdiv_sub_eq_natDiv hxlr, tdiv_sub_eq_natDiv htoplast]
    exact hb
  · intro x0' y0' hf' hkept
    have hpair : (x0', y0') = (x0, y0) := Option.some.inj (hf'.symm.trans hf)
    have hy0eq : y0' = y0 := congrArg Prod.snd hpair
    rw [hy0eq] at hkept
    obtain ⟨rowK, hscanK⟩ := Option.ne_none_iff_exists'.mp hkept
    obtain ⟨restK, hrowsK⟩ := allRows_head_of_kept hle hscanK
    have hr0K : r0 = rowK := by
      rw [hrowsK] at hrows
      exact (List.cons_eq_cons.mp hrows).1.symm
    have hfy : r0.firstY = y0 := by
      rw [hr0K]
      exact scan_firstY_of_rowVisible hscanK (rowHasVisible_of_vis hx0w hvis0)
    show (buildRects bs xl (r0.blocks.headD default).oy (r0 :: rest)).Pairwise _
    rw [htop, hfy, ← hrows]
    exact buildRects_pairwise_cells hbs hle hrowxl

/-- Witness for C9 as amended, on the green-square image. -/
theorem rect_cells_in_canvas_unique_witness :
    ((1 : ℕ) ≤ 16 ∧ assemble greenImg 16 = some greenDoc ∧
      find_first_nontransparent_pixel greenImg 128 = some (8, 8) ∧
      scan_row_blocks greenImg 8 16 128 ≠ none) ∧
    ((∀ r ∈ greenDoc.rects,
        0 ≤ r.x ∧ r.x < greenDoc.canvasW ∧ 0 ≤ r.y ∧ r.y < greenDoc.canvasH) ∧
      greenDoc.rects.Pairwise (fun r1 r2 => r1.x ≠ r2.x ∨ r1.y ≠ r2.y)) :=
  ⟨⟨by omega, by decide, by decide, by decide⟩,
    (rect_cells_in_canvas_unique greenImg 16 greenDoc (by omega) (by decide)).1,
    (rect_cells_in_canvas_unique greenImg 16 greenDoc (by omega) (by decide)).2
      8 8 (by decide) (by decide)⟩

/-- Claim C4 as amended: the canvas width always equals
`floor((rightmost_x - leftmost_x)/blockSize) + 1`; the canvas height equals
`floor((bottommost_y - topmost_y)/blockSize) + 1` whenever the row scanned at
the topmost visible pixel's Y is retained (in general the height is computed
from the first retained row's block origin instead of the topmost pixel). -/
theorem canvas_formula (im : Img) (bs : ℕ) (doc : SvgDoc) (hbs : 1 ≤ bs)
    (hdoc : assemble im bs = some doc) :
    (∀ xl yl xr yr, find_leftmost_nontransparent_pixel im 128 = some (xl, yl) →
      find_rightmost_nontransparent_pixel im 128 = some (xr, yr) →
      doc.canvasW = (((xr - xl) / bs : ℕ) : ℤ) + 1) ∧
    (∀ x0 y0 xe ye, find_first_nontransparent_pixel im 128 = some (x0, y0) →
      find_last_nontransparent_pixel im 128 = some (xe, ye) →
      scan_row_blocks im y0 bs 128 ≠ none →
      doc.canvasH = (((ye - y0) / bs : ℕ) : ℤ) + 1) := by
  obtain ⟨x0, y0, xe, lastY, r0, rest, hf, hl, hrows, hdocEq⟩ := assemble_eq_some hdoc
  obtain ⟨hx0w, hy0h, hvis0, -, -⟩ := find_first_spec hf
  obtain ⟨⟨xl0, yl0⟩, hleft⟩ :=
    Option.ne_none_iff_exists'.mp (leftmost_isSome_of_vis hx0w hy0h hvis0)
  obtain ⟨⟨xr0, yr0⟩, hright⟩ :=
    Option.ne_none_iff_exists'.mp (rightmost_isSome_of_vis hx0w hy0h hvis0)
  have hle : y0 ≤ lastY := vis_le_lastY hl hx0w hy0h hvis0
  have hr0mem : r0 ∈ allRows im bs y0 lastY := by
    rw [hrows]
    exact List.mem_cons_self _ _
  obtain ⟨k0, -, hscan0⟩ := mem_allRows hle hr0mem
  have htop : (r0.blocks.headD default).oy = r0.firstY := headD_block_oy hscan0
  subst hdocEq
  rw [buildDoc_fields hleft hright]
  constructor
  · intro xl yl xr yr hleft' hright'
    have h1 : (xl, yl) = (xl0, yl0) := Option.some.inj (hleft'.symm.trans hleft)
    have h2 : (xr, yr) = (xr0, yr0) := Option.some.inj (hright'.symm.trans hright)
    have hxleq : xl = xl0 := congrArg Prod.fst h1
    have hxreq : xr = xr0 := congrArg Prod.fst h2
    rw [hxleq, hxreq]
    have hxlr : xl0 ≤ xr0 := by
      obtain ⟨hxrw, hyrh, hvisr, -⟩ := find_rightmost_spec hright
      exact leftX_le_vis hleft hyrh hvisr
    show Int.tdiv ((xr0 : ℤ) - (xl0 : ℤ)) (bs : ℤ) + 1 = _
    rw [tdiv_sub_eq_natDiv hxlr]
  · intro x0' y0' xe' ye' hf' hl' hkept
    have hpf : (x0', y0') = (x0, y0) := Option.some.inj (hf'.symm.trans hf)
    have hpl : (xe', ye') = (xe, lastY) := Option.some.inj (hl'.symm.trans hl)
    have hy0 : y0' = y0 := congrArg Prod.snd hpf
    have hye : ye' = lastY := congrArg Prod.snd hpl
    rw [hy0] at hkept
    rw [hy0, hye]
    obtain ⟨rowK, hscanK⟩ := Option.ne_none_iff_exists'.mp hkept
    obtain ⟨restK, hrowsK⟩ := allRows_head_of_kept hle hscanK
    have hr0K : r0 = rowK := by
      rw [hrowsK] at hrows
      exact (List.cons_eq_cons.mp hrows).1.symm
    have hfy : r0.firstY = y0 := by
      rw [hr0K]
      exact scan_firstY_of_rowVisible hscanK (rowHasVisible_of_vis hx0w hvis0)
    show Int.tdiv ((lastY : ℤ) - ((r0.blocks.headD default).oy : ℤ)) (bs : ℤ) + 1 = _
    rw [htop, hfy, tdiv_sub_eq_natDiv hle]

/-- Witness for C4 as amended, on the green-square image. -/
theorem canvas_formula_witness :
    ((1 : ℕ) ≤ 16 ∧ assemble greenImg 16 = some greenDoc ∧
      find_leftmost_nontransparent_pixel greenImg 128 = some (8, 8) ∧
      find_rightmost_nontransparent_pixel greenImg 128 = some (23, 8) ∧
      find_first_nontransparent_pixel greenImg 128 = some (8, 8) ∧
      find_last_nontransparent_pixel greenImg 128 = some (23, 23) ∧
      scan_row_blocks greenImg 8 16 128 ≠ none) ∧
    (greenDoc.canvasW = (((23 - 8) / 16 : ℕ) : ℤ) + 1 ∧
      greenDoc.canvasH = (((23 - 8) / 16 : ℕ) : ℤ) + 1) :=
  ⟨⟨by omega, by decide, by decide, by decide, by decide, by decide, by decide⟩,
    (canvas_formula greenImg 16 greenDoc (by omega) (by decide)).1
      8 8 23 8 (by decide) (by decide),
    (canvas_formula greenImg 16 greenDoc (by omega) (by decide)).2
      8 8 23 23 (by decide) (by decide) (by decide)⟩

/-! ### Materializer round trip (claim C2) -/

theorem processRect_rawOfRect (r : SvgRect) :
    processRect (rawOfRect r) = (fillColor r.fill).map fun c => (r.x, r.y, 1, 1, c) := by
  cases hfc : fillColor r.fill with
  | none => simp [processRect, rawOfRect, hfc]
  | some c => simp [processRect, rawOfRect, hfc]

theorem coversCell_unit {W H : ℕ} {x y : ℤ} {c : ℕ × ℕ × ℕ} {px py : ℕ}
    (hx : x < (W : ℤ)) (hy : y < (H : ℤ)) :
    (coversCell W H (x, y, 1, 1, c) px py = true ↔ x = (px : ℤ) ∧ y = (py : ℤ)) := by
  rw [coversCell]
  simp only [Bool.and_eq_true, decide_eq_true_eq]
  omega

theorem paintAll_cons (W H : ℕ) (g0 : ℕ → ℕ → ℕ × ℕ × ℕ) (r : RawRect)
    (rest : List RawRect) :
    paintAll W H g0 (r :: rest) =
      paintAll W H
        (match processRect r with
          | none => g0
          | some pr => fun px py => if coversCell W H pr px py then pr.2.2.2.2 else g0 px py)
        rest := rfl

theorem paintAll_not_covered {W H : ℕ} {rs : List RawRect} {px py : ℕ}
    (h : ∀ r ∈ rs, ∀ pr, processRect r = some pr → coversCell W H pr px py = false) :
    ∀ g0, paintAll W H g0 rs px py = g0 px py := by
  induction rs with
  | nil => intro g0; rfl
  | cons r rest ih =>
    intro g0
    rw [paintAll_cons]
    have hrest : ∀ r' ∈ rest, ∀ pr, processRect r' = some pr →
        coversCell W H pr px py = false :=
      fun r' hr' => h r' (List.mem_cons_of_mem r hr')
    cases hpr : processRect r with
    | none => exact ih hrest _
    | some pr =>
      rw [ih hrest]
      have hcov := h r (List.mem_cons_self r rest) pr hpr
      dsimp only
      rw [hcov]
      rfl

theorem paintAll_eq_of_covered {W H : ℕ} {rs : List RawRect} {px py : ℕ}
    {c : ℕ × ℕ × ℕ}
    (hex : ∃ r ∈ rs, ∃ pr, processRect r = some pr ∧ coversCell W H pr px py = true)
    (hall : ∀ r ∈ rs, ∀ pr, processRect r = some pr →
      coversCell W H pr px py = true → pr.2.2.2.2 = c) :
    ∀ g0, paintAll W H g0 rs px py = c := by
  induction rs with
  | nil =>
    obtain ⟨r, hr, -⟩ := hex
    exact absurd hr (List.not_mem_nil r)
  | cons r rest ih =>
    intro g0
    rw [paintAll_cons]
    by_cases hrest : ∃ r' ∈ rest, ∃ pr, processRect r' = some pr ∧
        coversCell W H pr px py = true
    · exact ih hrest (fun r' hr' => hall r' (List.mem_cons_of_mem r hr')) _
    · have hnone : ∀ r' ∈ rest, ∀ pr, processRect r' = some pr →
          coversCell W H pr px py = false := by
        intro r' hr' pr hpr
        by_contra hcontra
        exact hrest ⟨r', hr', pr, hpr, by
          cases hcc : coversCell W H pr px py with
          | false => exact absurd hcc hcontra
          | true => rfl⟩
      rw [paintAll_not_covered hnone]
      obtain ⟨r0, hr0, pr0, hpr0, hcov0⟩ := hex
      rcases List.mem_cons.mp hr0 with rfl | hmem
      · rw [hpr0]
        dsimp only
        rw [if_pos hcov0]
        exact hall r0 (List.mem_cons_self r0 rest) pr0 hpr0 hcov0
      · exact absurd ⟨r0, hmem, pr0, hpr0, hcov0⟩ hrest

/-- Claim C2 as amended: whenever the row scanned at the first visible pixel's
Y is retained, feeding the emitted vector to Materializer Contract B
reproduces, at every rectangle's grid cell, exactly the RGB encoded by that
rectangle's fill (the output is an opaque RGB raster). -/
theorem round_trip_of_first_row_kept (im : Img) (bs : ℕ) (doc : SvgDoc)
    (x0 y0 : ℕ) (hbs : 1 ≤ bs)
    (hdoc : assemble im bs = some doc)
    (hfirst : find_first_nontransparent_pixel im 128 = some (x0, y0))
    (hkept : scan_row_blocks im y0 bs 128 ≠ none) :
    ∀ r ∈ doc.rects, editablePixel doc bs r.x.toNat r.y.toNat = fillColor r.fill := by
  obtain ⟨hbounds, hpairwise'⟩ := rect_cells_in_canvas_unique im bs doc hbs hdoc
  have hpairwise := hpairwise' x0 y0 hfirst hkept
  obtain ⟨x0', y0', xe, lastY, r0, rest, hf, hl, hrows, hdocEq⟩ := assemble_eq_some hdoc
  have hpair : (x0, y0) = (x0', y0') := Option.some.inj (hfirst.symm.trans hf)
  have hy0 : y0' = y0 := (congrArg Prod.snd hpair).symm
  subst hy0
  obtain ⟨hx0w, hy0h, hvis0, -, -⟩ := find_first_spec hf
  obtain ⟨⟨xl, yl⟩, hleft⟩ :=
    Option.ne_none_iff_exists'.mp (leftmost_isSome_of_vis hx0w hy0h hvis0)
  obtain ⟨⟨xr, yr⟩, hright⟩ :=
    Option.ne_none_iff_exists'.mp (rightmost_isSome_of_vis hx0w hy0h hvis0)
  have hle : y0' ≤ lastY := vis_le_lastY hl hx0w hy0h hvis0
  have hxlr : xl ≤ xr := by
    obtain ⟨hxrw, hyrh, hvisr, -⟩ := find_rightmost_spec hright
    exact leftX_le_vis hleft hyrh hvisr
  have hdocfields := hdocEq.trans (buildDoc_fields hleft hright)
  have hcw : doc.canvasW = (((xr - xl) / bs : ℕ) : ℤ) + 1 := by
    rw [hdocfields]
    show Int.tdiv ((xr : ℤ) - (xl : ℤ)) (bs : ℤ) + 1 = _
    rw [tdiv_sub_eq_natDiv hxlr]
  have hrects : doc.rects =
      buildRects bs xl ((r0.blocks.headD default).oy) (r0 :: rest) := by
    rw [hdocfields]
  have hr0mem : r0 ∈ allRows im bs y0' lastY := by
    rw [hrows]
    exact List.mem_cons_self _ _
  obtain ⟨k0, -, hscan0⟩ := mem_allRows hle hr0mem
  have htopD := headD_block_oy hscan0
  have htoplast : (r0.blocks.headD default).oy ≤ lastY := by
    rw [htopD]
    obtain ⟨-, -, hyh, hxw, hvis⟩ := scan_firstY_bounds hscan0
    exact vis_le_lastY hl hxw hyh hvis
  have hch : doc.canvasH =
      (((lastY - (r0.blocks.headD default).oy) / bs : ℕ) : ℤ) + 1 := by
    rw [hdocfields]
    show Int.tdiv ((lastY : ℤ) - ((r0.blocks.headD default).oy : ℤ)) (bs : ℤ) + 1 = _
    rw [tdiv_sub_eq_natDiv htoplast]
  have hWnn : ¬(doc.canvasW < 0 ∨ doc.canvasH < 0) := by
    rw [hcw, hch]
    push_neg
    constructor <;> positivity
  have hfills : ∀ rq ∈ doc.rects, ∃ p : Pixel,
      fillColor rq.fill = some (p.r.val, p.g.val, p.b.val) := by
    intro rq hrq
    have hrq' : rq ∈ buildRects bs xl ((r0.blocks.headD default).oy) (r0 :: rest) := by
      rw [← hrects]
      exact hrq
    obtain ⟨row, hrowmem, b, hb, hemit⟩ := mem_buildRects hrq'
    have hrowmem' : row ∈ allRows im bs y0' lastY := by
      rw [hrows]
      exact hrowmem
    obtain ⟨k, -, hscan⟩ := mem_allRows hle hrowmem'
    exact rowRect_fill_parses hscan hb hemit
  intro r hr
  obtain ⟨hx0b, hx1b, hy0b, hy1b⟩ := hbounds r hr
  obtain ⟨p, hparse⟩ := hfills r hr
  have hWcast : ((doc.canvasW.toNat : ℕ) : ℤ) = doc.canvasW := Int.toNat_of_nonneg (by omega)
  have hHcast : ((doc.canvasH.toNat : ℕ) : ℤ) = doc.canvasH := Int.toNat_of_nonneg (by omega)
  have hxcast : ((r.x.toNat : ℕ) : ℤ) = r.x := Int.toNat_of_nonneg hx0b
  have hycast : ((r.y.toNat : ℕ) : ℤ) = r.y := Int.toNat_of_nonneg hy0b
  rw [editablePixel, svg_to_editable_png, if_neg hWnn]
  show some (paintAll doc.canvasW.toNat doc.canvasH.toNat (fun _ _ => (255, 255, 255))
    (doc.rects.map rawOfRect) r.x.toNat r.y.toNat) = fillColor r.fill
  rw [hparse]
  refine congrArg some ?_
  refine paintAll_eq_of_covered ?_ ?_ _
  · refine ⟨rawOfRect r, List.mem_map_of_mem rawOfRect hr,
      (r.x, r.y, 1, 1, (p.r.val, p.g.val, p.b.val)), ?_, ?_⟩
    · rw [processRect_rawOfRect, hparse]
      rfl
    · rw [coversCell_unit (by omega) (by omega)]
      exact ⟨hxcast.symm, hycast.symm⟩
  · intro r' hr' pr hpr hcov
    obtain ⟨rq, hrq, hrawq⟩ := List.mem_map.mp hr'
    obtain ⟨pq, hparseq⟩ := hfills rq hrq
    have hprq : pr = (rq.x, rq.y, 1, 1, (pq.r.val, pq.g.val, pq.b.val)) := by
      rw [← hrawq, processRect_rawOfRect, hparseq] at hpr
      exact (Option.some.inj hpr).symm
    obtain ⟨hqx0, hqx1, hqy0, hqy1⟩ := hbounds rq hrq
    rw [hprq] at hcov
    rw [coversCell_unit (by omega) (by omega)] at hcov
    obtain ⟨hcx, hcy⟩ := hcov
    have hsamecell : rq.x = r.x ∧ rq.y = r.y := by
      constructor
      · rw [hcx, hxcast]
      · rw [hcy, hycast]
    have hrq_eq : rq = r := by
      by_contra hne
      have hsym : Symmetric (fun r1 r2 : SvgRect => r1.x ≠ r2.x ∨ r1.y ≠ r2.y) :=
        fun a b h => h.imp Ne.symm Ne.symm
      have := List.Pairwise.forall hsym hpairwise hrq hr hne
      rcases this with h | h
      · exact h hsamecell.1
      · exact h hsamecell.2
    rw [hprq]
    show (pq.r.val, pq.g.val, pq.b.val) = (p.r.val, p.g.val, p.b.val)
    have : fillColor r.fill = some (pq.r.val, pq.g.val, pq.b.val) := by
      rw [← hrq_eq]
      exact hparseq
    rw [hparse] at this
    exact (Option.some.inj this).symm

/-- Witness for C2 as amended, on the green-square image. -/
theorem round_trip_of_first_row_kept_witness :
    ((1 : ℕ) ≤ 16 ∧ assemble greenImg 16 = some greenDoc ∧
      find_first_nontransparent_pixel greenImg 128 = some (8, 8) ∧
      scan_row_blocks greenImg 8 16 128 ≠ none ∧
      SvgRect.mk 0 0 ("#00FF00".data) 10000 ∈ greenDoc.rects) ∧
    editablePixel greenDoc 16 ((0 : ℤ).toNat) ((0 : ℤ).toNat) =
      fillColor ("#00FF00".data) :=
  ⟨⟨by omega, by decide, by decide, by decide, by decide⟩,
    round_trip_of_first_row_kept greenImg 16 greenDoc 8 8 (by omega) (by decide)
      (by decide) (by decide) (SvgRect.mk 0 0 ("#00FF00".data) 10000) (by decide)⟩

/-- Claim C1: on the 32×32 image with a 16×16 green square at `(8, 8)`, with
threshold 128 and block size 16, the boundary scan returns `(8, 8)`; the row
scan at `start_y = 8` yields exactly one block with origin `(8, 8)`, 256
visible pixels and dominant color string `#00FF00FF`; and the emitted vector
has a 1×1 canvas with exactly one unit rectangle, fill `#00FF00` and
fill-opacity 1.0 (10000 ten-thousandths). -/
theorem green_square_scenario :
    find_first_nontransparent_pixel greenImg 128 = some (8, 8) ∧
    ((scan_row_blocks greenImg 8 16 128).map fun r =>
        r.blocks.map fun b => (b.ox, b.oy, b.visible_pixels,
          (b.color_counts.headD default).rgba_hex))
      = some [(8, 8, 256, ("#00FF00FF".data))] ∧
    assemble greenImg 16 = some greenDoc ∧
    greenDoc.canvasW = 1 ∧ greenDoc.canvasH = 1 ∧
    greenDoc.rects = [⟨0, 0, ("#00FF00".data), 10000⟩] := by
  refine ⟨by decide, by decide, by decide, rfl, rfl, rfl⟩

/-- Claim C3, counterexample: a missing input file exits with code 3, and so
does a failing SVG write on an image with content (which exits 0 with the
document when the write succeeds); the codes of the "bad input" and "I/O
failure" classes coincide, so the three failure classes do not get pairwise
distinct exit codes. -/
theorem exit_codes_not_distinct :
    (mainRun none 16 true).1 = 3 ∧
    mainRun (some greenImg) 16 true = (0, some greenDoc) ∧
    (mainRun (some greenImg) 16 false).1 = 3 ∧
    (mainRun (some transparentImg) 16 true).1 = 2 := by
  refine ⟨rfl, by decide, by decide, by decide⟩

/-- Claim C3 as amended: the CLI distinguishes the empty-content class (exit
code 2) from the other two failure classes, but "bad input" and "I/O failure"
share exit code 3: only two distinct codes cover the three classes. -/
theorem exit_codes_two_way (bs : ℕ) (wo : Bool) :
    (mainRun none bs wo).1 = 3 ∧
    (∀ im, assemble im bs = none → (mainRun (some im) bs wo).1 = 2) ∧
    (∀ im doc, assemble im bs = some doc →
      mainRun (some im) bs true = (0, some doc) ∧ (mainRun (some im) bs false).1 = 3) := by
  refine ⟨rfl, ?_, ?_⟩
  · intro im hnone
    cases hf : find_first_nontransparent_pixel im 128 with
    | none => simp [mainRun, hf]
    | some c =>
      cases hl : find_last_nontransparent_pixel im 128 with
      | none => simp [mainRun, hf, hl]
      | some c' => simp [mainRun, hf, hl, hnone]
  · intro im doc hdoc
    have hf : find_first_nontransparent_pixel im 128 ≠ none := by
      intro hf
      rw [assemble, hf] at hdoc
      exact Option.noConfusion hdoc
    obtain ⟨cf, hcf⟩ := Option.ne_none_iff_exists'.mp hf
    have hl : find_last_nontransparent_pixel im 128 ≠ none := by
      intro hl
      rw [assemble, hcf, hl] at hdoc
      rcases cf with ⟨cfx, cfy⟩
      exact Option.noConfusion hdoc
    obtain ⟨cl, hcl⟩ := Option.ne_none_iff_exists'.mp hl
    constructor <;> simp [mainRun, hcf, hcl, hdoc]

/-- Witness for C3 as amended, at concrete runs of each class. -/
theorem exit_codes_two_way_witness :
    (assemble transparentImg 16 = none ∧ assemble greenImg 16 = some greenDoc) ∧
    ((mainRun none 16 true).1 = 3 ∧
      (mainRun (some transparentImg) 16 true).1 = 2 ∧
      mainRun (some greenImg) 16 true = (0, some greenDoc) ∧
      (mainRun (some greenImg) 16 false).1 = 3) :=
  ⟨⟨by decide, by decide⟩,
    (exit_codes_two_way 16 true).1,
    (exit_codes_two_way 16 true).2.1 transparentImg (by decide),
    ((exit_codes_two_way 16 true).2.2 greenImg greenDoc (by decide)).1,
    ((exit_codes_two_way 16 true).2.2 greenImg greenDoc (by decide)).2⟩

/-- Claim C5, counterexample: on the all-zero gradient map (exactly what the
Sobel pipeline yields for a 3×3 constant image) at candidate size 3 both
averages are 0, so `avg_inside < 0.001`, yet the boundary contrast is 1 and
not `avg_boundary / 0.001 = 0` as claimed. -/
theorem boundary_contrast_counterexample :
    compute_gradient_at_positions 3 3 3 (fun _ _ => 0) = (0, 0) ∧
    compute_boundary_contrast 3 3 3 (fun _ _ => 0) = 1 ∧
    compute_boundary_contrast 3 3 3 (fun _ _ => 0) ≠ (0 : ℚ) / (1 / 1000) := by
  have hb : (allPositions 3 3).filter (fun p => onBlockEdge 3 p.1 p.2) =
      [(0, 0), (1, 0), (2, 0), (0, 1), (2, 1), (0, 2), (1, 2), (2, 2)] := by decide
  have hi : (allPositions 3 3).filter (fun p => !onBlockEdge 3 p.1 p.2) = [(1, 1)] := by
    decide
  have hg : compute_gradient_at_positions 3 3 3 (fun _ _ => 0) = (0, 0) := by
    simp only [compute_gradient_at_positions, hb, hi]
    rw [if_neg (by decide), if_neg (by decide)]
    norm_num
  have hc : compute_boundary_contrast 3 3 3 (fun _ _ => 0) = 1 := by
    simp only [compute_boundary_contrast, hg]
    norm_num
  refine ⟨hg, hc, ?_⟩
  rw [hc]
  norm_num

/-- Claim C5 as amended: the boundary contrast is `avgBoundary / avgInside`
when `avgInside ≥ 0.001`; when `avgInside < 0.001` it is `avgBoundary / 0.001`
if `avgBoundary > 0`, and `1.0` otherwise (in particular on an all-zero
gradient map). -/
theorem boundary_contrast_cases (hgt wdt n : ℕ) (g : ℕ → ℕ → ℚ) :
    ((1 : ℚ) / 1000 ≤ (compute_gradient_at_positions hgt wdt n g).2 →
      compute_boundary_contrast hgt wdt n g =
        (compute_gradient_at_positions hgt wdt n g).1 /
          (compute_gradient_at_positions hgt wdt n g).2) ∧
    ((compute_gradient_at_positions hgt wdt n g).2 < 1 / 1000 →
      0 < (compute_gradient_at_positions hgt wdt n g).1 →
      compute_boundary_contrast hgt wdt n g =
        (compute_gradient_at_positions hgt wdt n g).1 / (1 / 1000)) ∧
    ((compute_gradient_at_positions hgt wdt n g).2 < 1 / 1000 →
      (compute_gradient_at_positions hgt wdt n g).1 ≤ 0 →
      compute_boundary_contrast hgt wdt n g = 1) := by
  refine ⟨fun h1 => ?_, fun h1 h2 => ?_, fun h1 h2 => ?_⟩
  · rw [compute_boundary_contrast, if_neg (by exact not_lt.mpr h1)]
  · rw [compute_boundary_contrast, if_pos h1, if_pos h2]
  · rw [compute_boundary_contrast, if_pos h1, if_neg (by exact not_lt.mpr h2)]

/-- Witness for C5 as amended, on a uniform gradient map with a nonempty
interior. -/
theorem boundary_contrast_cases_witness :
    ((1 : ℚ) / 1000 ≤ (compute_gradient_at_positions 3 3 3 (fun _ _ => 1)).2) ∧
    compute_boundary_contrast 3 3 3 (fun _ _ => 1) =
      (compute_gradient_at_positions 3 3 3 (fun _ _ => 1)).1 /
        (compute_gradient_at_positions 3 3 3 (fun _ _ => 1)).2 := by
  have hb : (allPositions 3 3).filter (fun p => onBlockEdge 3 p.1 p.2) =
      [(0, 0), (1, 0), (2, 0), (0, 1), (2, 1), (0, 2), (1, 2), (2, 2)] := by decide
  have hi : (allPositions 3 3).filter (fun p => !onBlockEdge 3 p.1 p.2) = [(1, 1)] := by
    decide
  have hg : compute_gradient_at_positions 3 3 3 (fun _ _ => 1) = (1, 1) := by
    simp only [compute_gradient_at_positions, hb, hi]
    rw [if_neg (by decide), if_neg (by decide)]
    norm_num
  have hle : (1 : ℚ) / 1000 ≤ (compute_gradient_at_positions 3 3 3 (fun _ _ => 1)).2 := by
    rw [hg]
    norm_num
  exact ⟨hle, (boundary_contrast_cases 3 3 3 (fun _ _ => 1)).1 hle⟩

/-- Claim C10, counterexample: a rectangle with parseable geometry and the
7-character fill `#ZZZZZZ` is skipped (the hex parse raises), leaving the
background white, rather than being painted black as claimed. -/
theorem bad_fill_skipped :
    processRect zzRect = none ∧
    editablePixel ⟨1, 1, [⟨0, 0, ("#ZZZZZZ".data), 10000⟩]⟩ 16 0 0 = some (255, 255, 255) := by
  refine ⟨rfl, by decide⟩

/-- Claim C10 as amended: a fill that does not start with `#` or is not exactly
7 characters long paints black and the rectangle is kept; but a 7-character
`#`-prefixed fill whose digit pairs fail the hex parse (such as `#ZZZZZZ`)
causes the rectangle to be skipped, exactly like a geometry parse failure. -/
theorem fill_branch_behaviour :
    (∀ (x y w h : ℤ) (f : List Char),
      ¬(f.head? = some '#' ∧ f.length = 7) →
      processRect ⟨some x, some y, some w, some h, f⟩ = some (x, y, w, h, (0, 0, 0))) ∧
    processRect zzRect = none ∧
    editablePixel ⟨1, 1, [⟨0, 0, ("red".data), 10000⟩]⟩ 16 0 0 = some (0, 0, 0) := by
  refine ⟨?_, rfl, by decide⟩
  intro x y w h f hf
  simp [processRect, fillColor, if_neg hf]

/-- Witness for C10 as amended, on the fill string `red`. -/
theorem fill_branch_behaviour_witness :
    ¬((("red".data) : List Char).head? = some '#' ∧ (("red".data) : List Char).length = 7) ∧
    processRect ⟨some 0, some 0, some 1, some 1, ("red".data)⟩ =
      some (0, 0, 1, 1, (0, 0, 0)) :=
  ⟨by decide, fill_branch_behaviour.1 0 0 1 1 ("red".data) (by decide)⟩

/-- Claim C4, counterexample: on `sparseTopImg` at block size 2 the boundary
scanner reports first pixel `(0, 0)` and last pixel `(1, 3)`, so the claimed
height is `(3 - 0) / 2 + 1 = 2`; but the first strip's row is trimmed away, the
top reference becomes the second strip's block origin, and the emitted canvas
height is 1. -/
theorem canvas_height_counterexample :
    find_first_nontransparent_pixel sparseTopImg 128 = some (0, 0) ∧
    find_last_nontransparent_pixel sparseTopImg 128 = some (1, 3) ∧
    ((assemble sparseTopImg 2).map fun d => d.canvasH) = some 1 ∧
    Int.tdiv ((3 : ℤ) - 0) 2 + 1 = 2 := by
  refine ⟨by decide, by decide, by decide, by decide⟩

/-- Claim C9, counterexample: on `collideImg` at block size 2 the assembler
emits two distinct rectangles that occupy the same grid cell `(0, 0)` (the
first strip's row is trimmed, the second row's content sits at the bottom of
its strip, and the third row's content lands in the same grid row). -/
theorem distinct_cells_counterexample :
    ((assemble collideImg 2).map fun d => d.rects.map fun r => (r.x, r.y, r.fill))
      = some [(0, 0, ("#FF0000".data)), (0, 0, ("#0000FF".data))] := by
  decide

/-- Claim C2, counterexample: on the vector emitted for `collideImg` at block
size 2, the first rectangle has fill `#FF0000` (RGB `(255, 0, 0)`) at grid cell
`(0, 0)`, but the materialized pixel there is `(0, 0, 255)` — the second
rectangle overwrote it, so the round trip does not reproduce every rectangle's
RGB. -/
theorem round_trip_counterexample :
    ((assemble collideImg 2).map fun d => d.rects.map fun r => (r.x, r.y, r.fill))
      = some [(0, 0, ("#FF0000".data)), (0, 0, ("#0000FF".data))] ∧
    fillColor ("#FF0000".data) = some (255, 0, 0) ∧
    editablePixel ((assemble collideImg 2).getD default) 2 0 0 = some (0, 0, 255) := by
  refine ⟨by decide, by decide, by decide⟩

end PixelBria
